import Mathlib

/-!
# Verification of the pdblp message-text parser

A shallow embedding of `pdblp/parser.py`, which uses a pyparsing grammar to
translate the textual rendering of Bloomberg Open API requests/responses into
a list of dictionaries (`to_dict_list`) or a JSON string (`to_json`).

The embedding reproduces the pyparsing semantics of the grammar built in
`_parse`:

* every token expression first skips whitespace (pyparsing's
  `DEFAULT_WHITE_CHARS = " \n\t"`);
* `field = Word(printables + ' ', excludeChars='[]=')` with a `str.rstrip`
  parse action: a maximal run of ASCII 33..126 characters or spaces,
  excluding `[`, `]`, `=`, with trailing whitespace stripped;
* `string = dblQuotedString().setParseAction(removeQuotes)`: the pyparsing
  regex `"(?:[^"\n\r\\]|(?:"")|(?:\\(?:[^x]|x[0-9a-fA-F]+)))*"`, with the
  outer quotes removed and the contents kept verbatim;
* `date_expr = Regex(r'\d\d\d\d-\d\d-\d\d')` and
  `time_expr = Regex(r'\d\d:\d\d:\d\d\.\d\d\d')`, kept as strings;
* `number = pyparsing_common.number()`, i.e. the ordered choice
  `sci_real | real | signed_integer` with regexes
  `[+-]?\d+([eE][+-]?\d+|\.\d*([eE][+-]?\d+)?)`, `[+-]?\d+\.\d*`,
  `[+-]?\d+`; the first two convert with `float`, the last with `int`;
* `scalar_value = (string | date_expr | time_expr | number)`, an ordered
  choice (pyparsing `MatchFirst`, PEG semantics: the first alternative that
  succeeds wins, failure inside a following `And` does not re-try it);
* `memberDef = memberDef1 | memberDef2 | memberDef3` where
  `memberDef1 = Group(field + '=' + scalar_value)`,
  `memberDef2 = Group(field + '=' + jobject)`,
  `memberDef3 = Group(field + '[]' + '=' + '{' + value_list + '}')`;
* `value_list = delimitedList(scalar_value, ",") | ZeroOrMore(Group(Dict(memberDef2)))`;
* `jobject = Dict('{' + ZeroOrMore(memberDef) + '}')` with a parse action
  forcing an empty body to an (empty) dict;
* `parser = OneOrMore(Group(Dict(memberDef)))`, run with `parseString`,
  which does NOT require the whole input to be consumed (`parseAll`
  defaults to `False`).

Python floats are represented exactly as a decimal mantissa/exponent pair
`jfloat mant exp10`, denoting the real number `mant * 10 ^ exp10` (this is
the exact value of the decimal literal handed to Python's `float`).

The `Dict` converter together with `ParseResults.asDict` (used by
`to_dict_list`) flattens each object body into a key-ordered dictionary:
a repeated key keeps its position of first appearance and the value of its
LAST appearance (pyparsing's `ParseResults.__getitem__` returns the last
token stored under a results name).  `dictInsert`/`asDictFold` below
implement exactly that flattening.

The recursive grammar productions are embedded with a fuel parameter,
peeled structurally (`mkParsers`), so that all definitions reduce by `rfl`;
`to_dict_list` supplies `length + 1` fuel, which is ample because every
unit of fuel spent along a call chain corresponds to at least one consumed
input character.
-/

/-- The dictionary values produced by `to_dict_list`: Python strings,
ints, floats (exact decimal value `mant * 10 ^ exp10`), dicts (ordered
key/value lists) and lists. -/
inductive JValue where
  | jstr   : String → JValue
  | jint   : Int → JValue
  | jfloat : (mant : Int) → (exp10 : Int) → JValue
  | jobj   : List (String × JValue) → JValue
  | jlist  : List JValue → JValue

/-- The exact rational value denoted by a `jfloat mant exp10`. -/
def floatVal (mant exp10 : Int) : ℚ := (mant : ℚ) * (10 : ℚ) ^ exp10

/-- pyparsing `ParserElement.DEFAULT_WHITE_CHARS = " \n\t"`. -/
def isWsChar (c : Char) : Bool := c = ' ' || c = '\n' || c = '\t'

/-- Skip leading whitespace, as every pyparsing token expression does
before matching (`preParse`). -/
def skipWs : List Char → List Char
  | [] => []
  | c :: cs => if isWsChar c then skipWs cs else c :: cs

/-- `string.printable` minus whitespace: the ASCII range 33..126. -/
def isPrintableChar (c : Char) : Bool := 33 ≤ c.toNat && c.toNat ≤ 126

/-- The character set of `field = Word(printables + ' ', excludeChars='[]=')`. -/
def isFieldChar (c : Char) : Bool :=
  (isPrintableChar c || c = ' ') && !(c = '[' || c = ']' || c = '=')

/-- Maximal munch: split off the longest run satisfying `p`. -/
def takeWhileCh (p : Char → Bool) : List Char → List Char × List Char
  | [] => ([], [])
  | c :: cs =>
    if p c then
      let t := takeWhileCh p cs
      (c :: t.1, t.2)
    else ([], c :: cs)

/-- `str.rstrip` on a matched field token (its only whitespace can be spaces). -/
def rstripChars (cs : List Char) : List Char :=
  (cs.reverse.dropWhile (fun c => isWsChar c)).reverse

/-- `field`: skip whitespace, match a maximal nonempty run of field
characters, strip trailing whitespace (the `tokenMap(str.rstrip)` action). -/
def parseField (s : List Char) : Option (String × List Char) :=
  let t := takeWhileCh isFieldChar (skipWs s)
  if t.1.isEmpty then none
  else some (String.mk (rstripChars t.1), t.2)

/-- A suppressed literal token (`Suppress("{")`, `"}"`, `"="`, `","`). -/
def parseLit (c : Char) (s : List Char) : Option (List Char) :=
  match skipWs s with
  | d :: rest => if d = c then some rest else none
  | [] => none

/-- The suppressed list marker `Suppress("[]")`. -/
def parseListMarker (s : List Char) : Option (List Char) :=
  match skipWs s with
  | c :: cs =>
    if c = '[' then
      match cs with
      | c2 :: cs2 => if c2 = ']' then some cs2 else none
      | [] => none
    else none
  | [] => none

def isHexChar (c : Char) : Bool :=
  c.isDigit || ('a' ≤ c && c ≤ 'f') || ('A' ≤ c && c ≤ 'F')

/-- Prepend a consumed character to the pending contents of a quoted
string scan. -/
def dqCons (c : Char) (r : Option (List Char × List Char)) :
    Option (List Char × List Char) :=
  match r with
  | some (b, r2) => some (c :: b, r2)
  | none => none

/-- Regex backtracking at a doubled quote: the greedy star first tries to
keep `""` inside the contents; when the rest of the body can not complete
(no further closing quote), it gives the pair back and the first of the
two quotes closes the string instead. -/
def dqTry (cs2 : List Char) (r : Option (List Char × List Char)) :
    Option (List Char × List Char) :=
  match r with
  | some (b, r2) => some ('"' :: '"' :: b, r2)
  | none => some ([], '"' :: cs2)

/-- Body of pyparsing's `dblQuotedString` after the opening quote:
`(?:[^"\n\r\\]|(?:"")|(?:\\(?:[^x]|x[0-9a-fA-F]+)))*"`.  Returns the raw
matched contents (escapes are NOT processed; `removeQuotes` only strips the
outer quotes) and the input after the closing quote. -/
def dqBody : List Char → Option (List Char × List Char)
  | [] => none
  | c :: cs =>
    if c = '"' then
      match cs with
      | c2 :: cs2 =>
        -- a doubled quote stays inside the matched contents if the body can
        -- still be closed afterwards; otherwise the regex backtracks and the
        -- first quote closes the string
        if c2 = '"' then dqTry cs2 (dqBody cs2) else some ([], cs)
      | [] => some ([], cs)
    else if c = '\\' then
      match cs with
      | c2 :: cs2 =>
        if c2 = 'x' then
          match cs2 with
          | c3 :: cs3 =>
            if isHexChar c3 then dqCons '\\' (dqCons 'x' (dqCons c3 (dqBody cs3)))
            else none
          | [] => none
        else dqCons '\\' (dqCons c2 (dqBody cs2))
      | [] => none
    else if c = '\n' || c = '\r' then none
    else dqCons c (dqBody cs)

/-- `dblQuotedString` with the `removeQuotes` parse action. -/
def parseDblQuoted (s : List Char) : Option (String × List Char) :=
  match skipWs s with
  | c :: cs =>
    if c = '"' then
      match dqBody cs with
      | some (b, r) => some (String.mk b, r)
      | none => none
    else none
  | [] => none

/-- Match a fixed-width regex shape: `none` slots accept any digit, a
`some l` slot accepts exactly the literal `l`.  Returns the matched
characters and the remaining input. -/
def matchPat : List (Option Char) → List Char → Option (List Char × List Char)
  | [], s => some ([], s)
  | _ :: _, [] => none
  | p :: ps, c :: cs =>
    if (match p with | none => c.isDigit | some l => c = l) then dqCons c (matchPat ps cs)
    else none

/-- The shape of `date_expr = Regex(r'\d\d\d\d-\d\d-\d\d')`. -/
def datePat : List (Option Char) :=
  [none, none, none, none, some '-', none, none, some '-', none, none]

/-- The shape of `time_expr = Regex(r'\d\d:\d\d:\d\d\.\d\d\d')`. -/
def timePat : List (Option Char) :=
  [none, none, some ':', none, none, some ':', none, none, some '.',
   none, none, none]

/-- `date_expr`, kept as a string token. -/
def parseDate (s : List Char) : Option (String × List Char) :=
  match matchPat datePat (skipWs s) with
  | some (m, r) => some (String.mk m, r)
  | none => none

/-- `time_expr`, kept as a string token. -/
def parseTime (s : List Char) : Option (String × List Char) :=
  match matchPat timePat (skipWs s) with
  | some (m, r) => some (String.mk m, r)
  | none => none

/-- Decimal value of a digit run (Python `int` on a digit string). -/
def digitsVal (ds : List Char) : Nat :=
  ds.foldl (fun n c => 10 * n + (c.toNat - 48)) 0

/-- Optional exponent suffix `([eE][+-]?\d+)` of the number regexes.
Returns the signed exponent value, or `none` when the suffix (greedily
attempted by the regex) does not match here. -/
def parseExpOpt (s : List Char) : Option (Int × List Char) :=
  match s with
  | c :: cs =>
    if c = 'e' || c = 'E' then
      let sgn :=
        match cs with
        | c2 :: t => if c2 = '-' then (true, t) else if c2 = '+' then (false, t) else (false, cs)
        | [] => (false, cs)
      let t := takeWhileCh Char.isDigit sgn.2
      if t.1.isEmpty then none
      else some ((if sgn.1 then -(digitsVal t.1 : Int) else (digitsVal t.1 : Int)), t.2)
    else none
  | [] => none

/-- `pyparsing_common.number`: the ordered choice
`sci_real | real | signed_integer`.  A match with a fractional or exponent
part converts with `float` (kept exactly as mantissa/decimal exponent);
otherwise the digits convert with `int`. -/
def parseNumber (s : List Char) : Option (JValue × List Char) :=
  let s1 := skipWs s
  let sgn :=
    match s1 with
    | c :: cs => if c = '-' then (true, cs) else if c = '+' then (false, cs) else (false, s1)
    | [] => (false, s1)
  let neg := sgn.1
  let t := takeWhileCh Char.isDigit sgn.2
  if t.1.isEmpty then none
  else
    let signedInt : Int := if neg then -(digitsVal t.1 : Int) else (digitsVal t.1 : Int)
    match t.2 with
    | c :: cs =>
      if c = '.' then
        let fr := takeWhileCh Char.isDigit cs
        let mant : Int :=
          if neg then -(digitsVal (t.1 ++ fr.1) : Int) else (digitsVal (t.1 ++ fr.1) : Int)
        match parseExpOpt fr.2 with
        | some (e, r) => some (.jfloat mant (e - fr.1.length), r)
        | none => some (.jfloat mant (0 - (fr.1.length : Int)), fr.2)
      else if c = 'e' || c = 'E' then
        match parseExpOpt t.2 with
        | some (e, r) => some (.jfloat signedInt e, r)
        | none => some (.jint signedInt, t.2)
      else some (.jint signedInt, t.2)
    | [] => some (.jint signedInt, [])

/-- `scalar_value = (string | date_expr | time_expr | number)`:
ordered choice, tried in exactly that order. -/
def parseScalar (s : List Char) : Option (JValue × List Char) :=
  match parseDblQuoted s with
  | some (v, r) => some (.jstr v, r)
  | none =>
    match parseDate s with
    | some (v, r) => some (.jstr v, r)
    | none =>
      match parseTime s with
      | some (v, r) => some (.jstr v, r)
      | none => parseNumber s

/-- Tail of `delimitedList(scalar_value, ",")`: zero or more
`"," scalar_value` pairs; a failed pair rolls the position back to before
its comma. -/
def parseScalarTail : Nat → List Char → List JValue → Option (List JValue × List Char)
  | 0, _, _ => none
  | fuel + 1, s, acc =>
    match parseLit ',' s with
    | some r1 =>
      match parseScalar r1 with
      | some (v, r2) => parseScalarTail fuel r2 (acc ++ [v])
      | none => some (acc, s)
    | none => some (acc, s)

/-- `delimitedList(scalar_value, ",")`: at least one scalar. -/
def parseScalarList (fuel : Nat) (s : List Char) : Option (List JValue × List Char) :=
  match parseScalar s with
  | some (v, r) => parseScalarTail fuel r [v]
  | none => none

/-- One step of the dictionary flattening done by `Dict` + `asDict`:
a repeated key keeps its first position but takes the later value. -/
def dictInsert (acc : List (String × JValue)) (k : String) (v : JValue) :
    List (String × JValue) :=
  if acc.any (fun p => p.1 = k) then
    acc.map (fun p => if p.1 = k then (k, v) else p)
  else acc ++ [(k, v)]

/-- Flatten a member sequence into the dictionary `asDict` produces. -/
def asDictFold (ms : List (String × JValue)) : List (String × JValue) :=
  ms.foldl (fun acc m => dictInsert acc m.1 m.2) []

/-- The mutually recursive grammar productions at one fuel level. -/
structure Parsers where
  member : List Char → Option ((String × JValue) × List Char)
  object : List Char → Option (List (String × JValue) × List Char)
  membersAcc : List Char → List (String × JValue) →
    Option (List (String × JValue) × List Char)
  valueList : List Char → Option (List JValue × List Char)
  groupAcc : List Char → List JValue → Option (List JValue × List Char)

/-- The failing parser bundle (exhausted fuel). -/
def failParsers : Parsers where
  member := fun _ => none
  object := fun _ => none
  membersAcc := fun _ _ => none
  valueList := fun _ => none
  groupAcc := fun _ _ => none

/-- `memberDef2 = Group(field + '=' + jobject)`, parameterised by the
object parser of the previous fuel level; also the shape of one
repetition inside a `[]` list body. -/
def memberDef2With (obj : List Char → Option (List (String × JValue) × List Char))
    (s : List Char) : Option ((String × List (String × JValue)) × List Char) :=
  match parseField s with
  | some (name, r1) =>
    match parseLit '=' r1 with
    | some r2 =>
      match obj r2 with
      | some (ms, r3) => some ((name, ms), r3)
      | none => none
    | none => none
  | none => none

/-- Build the grammar's recursive productions by structural recursion on
fuel, so that everything reduces definitionally. -/
def mkParsers : Nat → Parsers
  | 0 => failParsers
  | fuel + 1 =>
    let p := mkParsers fuel
    { member := fun s =>
        -- memberDef1 | memberDef2 | memberDef3 (ordered choice)
        (match parseField s with
         | some (name, r1) =>
           match parseLit '=' r1 with
           | some r2 =>
             match parseScalar r2 with
             | some (v, r3) => some ((name, v), r3)
             | none => none
           | none => none
         | none => none)
        <|>
        (match memberDef2With p.object s with
         | some ((name, ms), r3) => some ((name, JValue.jobj ms), r3)
         | none => none)
        <|>
        (match parseField s with
         | some (name, r1) =>
           match parseListMarker r1 with
           | some r2 =>
             match parseLit '=' r2 with
             | some r3 =>
               match parseLit '{' r3 with
               | some r4 =>
                 match p.valueList r4 with
                 | some (vs, r5) =>
                   match parseLit '}' r5 with
                   | some r6 => some ((name, JValue.jlist vs), r6)
                   | none => none
                 | none => none
               | none => none
             | none => none
           | none => none
         | none => none)
      object := fun s =>
        match parseLit '{' s with
        | some r1 =>
          match p.membersAcc r1 [] with
          | some (ms, r2) =>
            match parseLit '}' r2 with
            | some r3 => some (asDictFold ms, r3)
            | none => none
          | none => none
        | none => none
      membersAcc := fun s acc =>
        match p.member s with
        | some (m, r) => p.membersAcc r (acc ++ [m])
        | none => some (acc, s)
      valueList := fun s =>
        match parseScalarList fuel s with
        | some r => some r
        | none => p.groupAcc s []
      groupAcc := fun s acc =>
        match memberDef2With p.object s with
        | some ((name, ms), r) =>
          p.groupAcc r (acc ++ [JValue.jobj [(name, JValue.jobj ms)]])
        | none => some (acc, s) }

/-- `OneOrMore(Group(Dict(memberDef)))` driven as a loop: collect members
until one fails to parse; the remaining input is left unconsumed. -/
def parseTopAcc : Nat → List Char → List (String × JValue) →
    Option (List (String × JValue) × List Char)
  | 0, _, _ => none
  | fuel + 1, s, acc =>
    match (mkParsers fuel).member s with
    | some (m, r) => parseTopAcc fuel r (acc ++ [m])
    | none => some (acc, s)

/-- `str.expandtabs()` with the default tab size of 8, column by column:
a tab becomes the number of spaces that reaches the next multiple of 8,
the column resets after a line feed or carriage return, and every other
character advances it by one. -/
def expandTabsAux : List Char → Nat → List Char
  | [], _ => []
  | c :: t, col =>
    if c = '\t' then
      List.replicate (8 - col % 8) ' ' ++ expandTabsAux t (col + (8 - col % 8))
    else if c = '\n' || c = '\r' then
      c :: expandTabsAux t 0
    else
      c :: expandTabsAux t (col + 1)

/-- `instring.expandtabs()`, which `parseString` applies to its input
before matching (`keepTabs` is never set by the module). -/
def expandTabs (s : List Char) : List Char := expandTabsAux s 0

/-- `_parse(mystr)`: run the grammar with `parseString`, which first
expands tabs in the input (`keepTabs` is left `False`) and tolerates
trailing unparsed text.  `none` models the `ParseException` raised when
not even one top-level member matches. -/
def _parse (mystr : String) : Option (List (String × JValue)) :=
  match parseTopAcc ((expandTabs mystr.data).length + 1) (expandTabs mystr.data) [] with
  | some ([], _) => none
  | some (ms, _) => some ms
  | none => none

/-- `to_dict_list(mystr)`: one single-key dictionary (`res_dict.asDict()`)
per parsed top-level member, in source order. -/
def to_dict_list (mystr : String) : Option (List (List (String × JValue))) :=
  match _parse mystr with
  | some ms => some (ms.map (fun m => [m]))
  | none => none

/-- `to_json(mystr)`: the Python source computes
`json.dumps(dicts, indent=2)` but lacks a `return` statement, so whenever
parsing succeeds the function returns `None` (modelled as the inner
`none`); a parse failure propagates (the outer `none`). -/
def to_json (mystr : String) : Option (Option String) :=
  match to_dict_list mystr with
  | some _ => some none
  | none => none

/-! ## A model of renderable message texts

To state the spec's universally quantified properties ("for every record
name X ...", "for every `[]`-marked field ...") we introduce a tree model
of well-formed message texts, a renderer producing the concrete textual
form consumed by the grammar (fields separated by newlines, as in the
Bloomberg message dumps the module documents), and the dictionary each
tree denotes.  The renderer and the wellformedness conditions live purely
on the theorem side; the parser above is the object under verification. -/

/-- Scalar literals, by lexical form: a double-quoted string, a signed
integer literal given by its digit characters, a float literal (optional
fractional part and/or optional exponent part, at least one present), a
`YYYY-MM-DD` date literal and a `HH:MM:SS.mmm` time literal. -/
inductive PScalar where
  | pstr   (s : String)
  | pint   (neg : Bool) (ds : List Char)
  | pfloat (neg : Bool) (ds : List Char) (fp : Option (List Char))
           (ex : Option (Option Bool × List Char))
  | pdate  (a b c d e f g h : Char)
  | ptime  (a b c d e f g h i : Char)

mutual
/-- A member's value: a scalar, a nested object body, a `[]` list with a
flat comma-separated scalar body, or a `[]` list with repeated
`key = { ... }` groups. -/
inductive PVal where
  | pscalar (sc : PScalar)
  | pobj    (ms : PMembers)
  | plistS  (ss : List PScalar)
  | plistG  (gs : PGroups)

/-- A sequence of `name = value` members in source order. -/
inductive PMembers where
  | mnil
  | mcons (name : String) (v : PVal) (t : PMembers)

/-- A sequence of `key = { ... }` repetitions inside a `[]` body. -/
inductive PGroups where
  | gnil
  | gcons (name : String) (body : PMembers) (t : PGroups)
end

/-- Render the optional sign of an exponent part. -/
def renderESign : Option Bool → List Char
  | some true => ['-']
  | some false => ['+']
  | none => []

/-- Render one scalar literal. -/
def renderScalar : PScalar → List Char
  | .pstr s => '"' :: s.data ++ ['"']
  | .pint neg ds => (if neg then ['-'] else []) ++ ds
  | .pfloat neg ds fp ex =>
    (if neg then ['-'] else []) ++ ds ++
    (match fp with
     | some f => '.' :: f
     | none => []) ++
    (match ex with
     | some (es, eds) => 'e' :: renderESign es ++ eds
     | none => [])
  | .pdate a b c d e f g h => [a, b, c, d, '-', e, f, '-', g, h]
  | .ptime a b c d e f g h i => [a, b, ':', c, d, ':', e, f, '.', g, h, i]

/-- Render the `, scalar` continuations of a comma-separated scalar list. -/
def renderScalarsTl : List PScalar → List Char
  | [] => []
  | sc :: t => ',' :: ' ' :: renderScalar sc ++ renderScalarsTl t

/-- Render a comma-separated scalar list body line. -/
def renderScalars : List PScalar → List Char
  | [] => []
  | sc :: t => renderScalar sc ++ renderScalarsTl t

mutual
/-- Render `name = scalar`, `name = { ... }`, or `name[] = { ... }`,
one member per line. -/
def renderMember (n : String) (v : PVal) : List Char :=
  match v with
  | .pscalar sc => n.data ++ ' ' :: '=' :: ' ' :: renderScalar sc ++ ['\n']
  | .pobj ms => n.data ++ ' ' :: '=' :: ' ' :: '{' :: '\n' :: renderMembers ms ++ '}' :: ['\n']
  | .plistS ss =>
    n.data ++ '[' :: ']' :: ' ' :: '=' :: ' ' :: '{' :: '\n' ::
      renderScalars ss ++ '\n' :: '}' :: ['\n']
  | .plistG gs =>
    n.data ++ '[' :: ']' :: ' ' :: '=' :: ' ' :: '{' :: '\n' ::
      renderGroups gs ++ '}' :: ['\n']

def renderMembers : PMembers → List Char
  | .mnil => []
  | .mcons n v t => renderMember n v ++ renderMembers t

def renderGroups : PGroups → List Char
  | .gnil => []
  | .gcons n body t =>
    n.data ++ ' ' :: '=' :: ' ' :: '{' :: '\n' :: renderMembers body ++ '}' :: '\n' ::
      renderGroups t
end

/-- Signed decimal integer value of a digit run. -/
def signedVal (neg : Bool) (ds : List Char) : Int :=
  if neg then -(digitsVal ds : Int) else (digitsVal ds : Int)

/-- Value of an optional exponent part. -/
def expVal : Option (Option Bool × List Char) → Int
  | none => 0
  | some (es, eds) => if es = some true then -(digitsVal eds : Int) else (digitsVal eds : Int)

/-- The Python value of one scalar literal (floats keep their exact
decimal value as mantissa and decimal exponent). -/
def semScalar : PScalar → JValue
  | .pstr s => .jstr s
  | .pint neg ds => .jint (signedVal neg ds)
  | .pfloat neg ds fp ex =>
    .jfloat (signedVal neg (ds ++ (fp.getD []))) (expVal ex - ((fp.getD []).length : Int))
  | .pdate a b c d e f g h => .jstr (String.mk [a, b, c, d, '-', e, f, '-', g, h])
  | .ptime a b c d e f g h i => .jstr (String.mk [a, b, ':', c, d, ':', e, f, '.', g, h, i])

mutual
/-- The dictionary value a member value denotes in `to_dict_list` output. -/
def semVal : PVal → JValue
  | .pscalar sc => semScalar sc
  | .pobj ms => .jobj (asDictFold (semPairs ms))
  | .plistS ss => .jlist (ss.map semScalar)
  | .plistG gs => .jlist (semGroups gs)

/-- Name/value pairs of a member sequence, in source order (before the
`asDict` dictionary flattening). -/
def semPairs : PMembers → List (String × JValue)
  | .mnil => []
  | .mcons n v t => (n, semVal v) :: semPairs t

/-- Each `key = { ... }` repetition becomes a one-key dictionary. -/
def semGroups : PGroups → List JValue
  | .gnil => []
  | .gcons n body t =>
    .jobj [(n, .jobj (asDictFold (semPairs body)))] :: semGroups t
end

/-- A field name as the grammar itself can produce one: nonempty, made of
field characters, and not starting or ending with a space. -/
def wfName (s : String) : Bool :=
  match s.data with
  | [] => false
  | c :: _ => c != ' ' && s.data.all isFieldChar && s.data.getLast? != some ' '

/-- Characters a double-quoted string body may contain plainly and survive
the pipeline verbatim: quotes, backslashes and line breaks are excluded by
the `dblQuotedString` regex, and a tab is excluded because `parseString`
expands tabs to spaces before the grammar ever sees the input, so a tab
inside a quoted literal does not come back verbatim. -/
def okStrChar (c : Char) : Bool :=
  !(c = '"' || c = '\\' || c = '\n' || c = '\r' || c = '\t')

/-- Wellformedness of a scalar literal. -/
def wfScalar : PScalar → Bool
  | .pstr s => s.data.all okStrChar
  | .pint _ ds => !ds.isEmpty && ds.all Char.isDigit
  | .pfloat _ ds fp ex =>
    !ds.isEmpty && ds.all Char.isDigit &&
    (match fp with
     | some f => f.all Char.isDigit
     | none => true) &&
    (match ex with
     | some (_, eds) => !eds.isEmpty && eds.all Char.isDigit
     | none => true) &&
    (fp.isSome || ex.isSome)
  | .pdate a b c d e f g h =>
    a.isDigit && b.isDigit && c.isDigit && d.isDigit &&
    e.isDigit && f.isDigit && g.isDigit && h.isDigit
  | .ptime a b c d e f g h i =>
    a.isDigit && b.isDigit && c.isDigit && d.isDigit &&
    e.isDigit && f.isDigit && g.isDigit && h.isDigit && i.isDigit

/-- A name whose first character cannot begin any scalar literal (needed
for the first repetition inside a `[]` body, because the flat-scalar-list
alternative of `value_list` is tried first). -/
def noScalarStart (s : String) : Bool :=
  match s.data with
  | [] => false
  | c :: _ => !(c.isDigit || c = '-' || c = '+' || c = '"')

/-- First repetition name of a group sequence, if any. -/
def firstGroupName : PGroups → Option String
  | .gnil => none
  | .gcons n _ _ => some n

mutual
/-- Wellformedness of a member value. -/
def wfVal : PVal → Bool
  | .pscalar sc => wfScalar sc
  | .pobj ms => wfMembers ms
  | .plistS ss => !ss.isEmpty && ss.all wfScalar
  | .plistG gs =>
    wfGroups gs &&
    (match firstGroupName gs with
     | some n => noScalarStart n
     | none => true)

def wfMembers : PMembers → Bool
  | .mnil => true
  | .mcons n v t => wfName n && wfVal v && wfMembers t

def wfGroups : PGroups → Bool
  | .gnil => true
  | .gcons n body t => wfName n && wfMembers body && wfGroups t
end

mutual
/-- Fuel needed by the value's production (one unit per recursive call
along the deepest call chain). -/
def needVal : PVal → Nat
  | .pscalar _ => 0
  | .pobj ms => needMembers ms + 1
  | .plistS ss => ss.length + 1
  | .plistG gs => needGroups gs + 1

def needMembers : PMembers → Nat
  | .mnil => 1
  | .mcons _ v t => 1 + max (needVal v + 1) (needMembers t)

def needGroups : PGroups → Nat
  | .gnil => 1
  | .gcons _ body t => 1 + max (needMembers body + 1) (needGroups t)
end

/-! ## Unfolding lemmas for the fuel-indexed parser bundle -/

theorem member_zero (s : List Char) : (mkParsers 0).member s = none := rfl

theorem object_zero (s : List Char) : (mkParsers 0).object s = none := rfl

theorem membersAcc_zero (s : List Char) (acc : List (String × JValue)) :
    (mkParsers 0).membersAcc s acc = none := rfl

theorem valueList_zero (s : List Char) : (mkParsers 0).valueList s = none := rfl

theorem groupAcc_zero (s : List Char) (acc : List JValue) :
    (mkParsers 0).groupAcc s acc = none := rfl

theorem member_succ (fuel : Nat) (s : List Char) :
    (mkParsers (fuel + 1)).member s =
      ((match parseField s with
        | some (name, r1) =>
          match parseLit '=' r1 with
          | some r2 =>
            match parseScalar r2 with
            | some (v, r3) => some ((name, v), r3)
            | none => none
          | none => none
        | none => none)
       <|>
       (match memberDef2With (mkParsers fuel).object s with
        | some ((name, ms), r3) => some ((name, JValue.jobj ms), r3)
        | none => none)
       <|>
       (match parseField s with
        | some (name, r1) =>
          match parseListMarker r1 with
          | some r2 =>
            match parseLit '=' r2 with
            | some r3 =>
              match parseLit '{' r3 with
              | some r4 =>
                match (mkParsers fuel).valueList r4 with
                | some (vs, r5) =>
                  match parseLit '}' r5 with
                  | some r6 => some ((name, JValue.jlist vs), r6)
                  | none => none
                | none => none
              | none => none
            | none => none
          | none => none
        | none => none)) := rfl

theorem object_succ (fuel : Nat) (s : List Char) :
    (mkParsers (fuel + 1)).object s =
      (match parseLit '{' s with
       | some r1 =>
         match (mkParsers fuel).membersAcc r1 [] with
         | some (ms, r2) =>
           match parseLit '}' r2 with
           | some r3 => some (asDictFold ms, r3)
           | none => none
         | none => none
       | none => none) := rfl

theorem membersAcc_succ (fuel : Nat) (s : List Char) (acc : List (String × JValue)) :
    (mkParsers (fuel + 1)).membersAcc s acc =
      (match (mkParsers fuel).member s with
       | some (m, r) => (mkParsers fuel).membersAcc r (acc ++ [m])
       | none => some (acc, s)) := rfl

theorem valueList_succ (fuel : Nat) (s : List Char) :
    (mkParsers (fuel + 1)).valueList s =
      (match parseScalarList fuel s with
       | some r => some r
       | none => (mkParsers fuel).groupAcc s []) := rfl

theorem groupAcc_succ (fuel : Nat) (s : List Char) (acc : List JValue) :
    (mkParsers (fuel + 1)).groupAcc s acc =
      (match memberDef2With (mkParsers fuel).object s with
       | some ((name, ms), r) =>
         (mkParsers fuel).groupAcc r (acc ++ [JValue.jobj [(name, JValue.jobj ms)]])
       | none => some (acc, s)) := rfl

/-! ## Character-class facts -/

theorem not_ws_of_fieldChar {c : Char} (h : isFieldChar c = true) (hs : c ≠ ' ') :
    isWsChar c = false := by
  simp only [isFieldChar, Bool.and_eq_true, Bool.or_eq_true, Bool.not_eq_true'] at h
  rcases h.1 with hp | hp
  · simp only [isPrintableChar, Bool.and_eq_true, decide_eq_true_eq] at hp
    simp only [isWsChar, Bool.or_eq_false_iff, decide_eq_false_iff_not]
    refine ⟨⟨hs, ?_⟩, ?_⟩ <;> rintro rfl <;> exact absurd hp (by decide)
  · exact absurd (by simpa using hp) hs

theorem digit_ne {c d : Char} (h : c.isDigit = true) (hd : d.isDigit = false) : c ≠ d := by
  rintro rfl; rw [h] at hd; simp at hd

theorem not_ws_of_digit {c : Char} (h : c.isDigit = true) : isWsChar c = false := by
  simp only [isWsChar, Bool.or_eq_false_iff, decide_eq_false_iff_not]
  refine ⟨⟨?_, ?_⟩, ?_⟩ <;> rintro rfl <;> revert h <;> decide

/-! ## Whitespace skipping -/

theorem skipWs_nil : skipWs [] = [] := rfl

theorem skipWs_cons_ws {c : Char} (h : isWsChar c = true) (s : List Char) :
    skipWs (c :: s) = skipWs s := by simp [skipWs, h]

theorem skipWs_cons_neg {c : Char} (h : isWsChar c = false) (s : List Char) :
    skipWs (c :: s) = c :: s := by simp [skipWs, h]

theorem skipWs_append_ws {pad : List Char} (h : ∀ c ∈ pad, isWsChar c = true)
    (s : List Char) : skipWs (pad ++ s) = skipWs s := by
  induction pad with
  | nil => rfl
  | cons c t ih =>
    rw [List.cons_append, skipWs_cons_ws (h c (by simp)) (t ++ s)]
    exact ih (fun d hd => h d (by simp [hd]))

/-! ## Maximal munch -/

/-- `p` fails on the head of the remaining input (or it is empty): the
stopping condition of a maximal munch. -/
def headFails (p : Char → Bool) : List Char → Prop
  | [] => True
  | c :: _ => p c = false

theorem takeWhileCh_append {p : Char → Bool} {xs ys : List Char}
    (hx : ∀ c ∈ xs, p c = true) (hy : headFails p ys) :
    takeWhileCh p (xs ++ ys) = (xs, ys) := by
  induction xs with
  | nil =>
    cases ys with
    | nil => rfl
    | cons c t => simpa [takeWhileCh, headFails] using (by simpa [headFails] using hy)
  | cons c t ih =>
    have hc : p c = true := hx c (by simp)
    rw [List.cons_append]
    simp only [takeWhileCh, hc, if_pos]
    rw [ih (fun d hd => hx d (by simp [hd]))]

/-! ## rstrip -/

theorem rstripChars_no_trailing {xs : List Char}
    (h : ∀ c ∈ xs.getLast?, isWsChar c = false) : rstripChars xs = xs := by
  unfold rstripChars
  cases hr : xs.reverse with
  | nil =>
    have : xs = [] := by simpa using congrArg List.reverse hr
    subst this; rfl
  | cons c t =>
    have hc : xs.getLast? = some c := by
      rw [← List.head?_reverse, hr]; rfl
    have : isWsChar c = false := h c (by rw [hc]; rfl)
    rw [List.dropWhile_cons, this]
    simp only [Bool.false_eq_true, if_false]
    rw [← hr, List.reverse_reverse]

theorem dropWhile_ws_of_all : ∀ (pad : List Char), (∀ c ∈ pad, isWsChar c = true) →
    ∀ rest : List Char,
      (pad ++ rest).dropWhile (fun c => isWsChar c) = rest.dropWhile (fun c => isWsChar c) := by
  intro pad
  induction pad with
  | nil => intro _ rest; rfl
  | cons c t ih =>
    intro h rest
    rw [List.cons_append, List.dropWhile_cons, h c (by simp)]
    simp only [if_true]
    exact ih (fun d hd => h d (by simp [hd])) rest

theorem rstripChars_append_ws {xs pad : List Char}
    (h : ∀ c ∈ pad, isWsChar c = true) : rstripChars (xs ++ pad) = rstripChars xs := by
  unfold rstripChars
  rw [List.reverse_append,
    dropWhile_ws_of_all pad.reverse (fun c hc => h c (List.mem_reverse.mp hc)) xs.reverse]

/-! ## Field tokens -/

/-- The input continues with a newline, or ends: what always follows a
rendered member or a closing brace. -/
def nlOrNil : List Char → Prop
  | [] => True
  | c :: _ => c = '\n'

theorem headFails_of_nlOrNil {rest : List Char} (h : nlOrNil rest) :
    headFails isFieldChar rest := by
  cases rest with
  | nil => trivial
  | cons c t =>
    simp only [nlOrNil] at h
    subst h
    show isFieldChar '\n' = false
    decide

theorem wfName_parts {n : String} (h : wfName n = true) :
    n.data ≠ [] ∧ (∀ c ∈ n.data, isFieldChar c = true) ∧
      (∀ c ∈ n.data.head?, c ≠ ' ') ∧ (∀ c ∈ n.data.getLast?, c ≠ ' ') := by
  unfold wfName at h
  cases hd : n.data with
  | nil => rw [hd] at h; simp at h
  | cons c t =>
    rw [hd] at h
    simp only [Bool.and_eq_true, bne_iff_ne, ne_eq, List.all_eq_true] at h
    obtain ⟨⟨hc, hall⟩, hlast⟩ := h
    refine ⟨by simp, fun d hd2 => by simpa using hall d (by simpa using hd2), ?_, ?_⟩
    · intro d hd2
      simp only [List.head?, Option.mem_def, Option.some.injEq] at hd2
      subst hd2; exact hc
    · intro d hd2
      intro he
      subst he
      exact hlast (by simpa using hd2)

theorem string_mk_data (s : String) : String.mk s.data = s := rfl

theorem parseField_of_munch {n : String} (hwf : wfName n = true)
    (pad rest : List Char) (hpad : ∀ c ∈ pad, c = ' ')
    (hr : headFails isFieldChar rest) :
    parseField (n.data ++ (pad ++ rest)) = some (n, rest) := by
  obtain ⟨hne, hall, hhead, hlast⟩ := wfName_parts hwf
  cases hd : n.data with
  | nil => exact absurd hd hne
  | cons c t =>
    have hcf : isFieldChar c = true := hall c (by rw [hd]; simp)
    have hcs : c ≠ ' ' := by
      have := hhead c; rw [hd] at this; exact this (by simp [List.head?])
    have hskip : skipWs ((c :: t) ++ (pad ++ rest)) = (c :: t) ++ (pad ++ rest) := by
      rw [List.cons_append]
      exact skipWs_cons_neg (not_ws_of_fieldChar hcf hcs) _
    have hmunch : takeWhileCh isFieldChar (((c :: t) ++ pad) ++ rest) = ((c :: t) ++ pad, rest) := by
      refine takeWhileCh_append ?_ hr
      intro d hdm
      rcases List.mem_append.mp hdm with hdm | hdm
      · exact hall d (by rw [hd]; exact hdm)
      · rw [hpad d hdm]; decide
    have hpadws : ∀ x ∈ pad, isWsChar x = true := by
      intro x hx; rw [hpad x hx]; rfl
    have hstrip : rstripChars ((c :: t) ++ pad) = c :: t := by
      rw [rstripChars_append_ws hpadws]
      refine rstripChars_no_trailing ?_
      intro d hd2
      have hdm : isFieldChar d = true := by
        have : d ∈ n.data := by
          rw [hd]
          exact List.mem_of_getLast?_eq_some (by simpa using hd2)
        exact hall d this
      have : d ≠ ' ' := by
        have := hlast d; rw [hd] at this; exact this hd2
      exact not_ws_of_fieldChar hdm this
    unfold parseField
    rw [hskip, ← List.append_assoc, hmunch]
    simp only [List.isEmpty_eq_true, List.append_eq_nil, List.cons_ne_nil, false_and,
      if_false]
    rw [hstrip, ← hd, string_mk_data]

theorem parseField_sp_eq {n : String} (hwf : wfName n = true) (r : List Char) :
    parseField (n.data ++ ' ' :: '=' :: r) = some (n, '=' :: r) := by
  have := parseField_of_munch hwf [' '] ('=' :: r) (by simp)
    (show isFieldChar '=' = false by decide)
  simpa using this

theorem parseField_brk_eq {n : String} (hwf : wfName n = true) (r : List Char) :
    parseField (n.data ++ '[' :: r) = some (n, '[' :: r) := by
  have := parseField_of_munch hwf [] ('[' :: r) (by simp)
    (show isFieldChar '[' = false by decide)
  simpa using this

theorem parseField_brace {rest : List Char} (h : nlOrNil rest) :
    parseField ('}' :: rest) = some ("\x7d", rest) := by
  have hskip : skipWs ('}' :: rest) = '}' :: rest := skipWs_cons_neg (by decide) _
  have hmunch : takeWhileCh isFieldChar (['}'] ++ rest) = (['}'], rest) :=
    takeWhileCh_append (by decide) (headFails_of_nlOrNil h)
  unfold parseField
  rw [hskip]
  rw [show '}' :: rest = ['}'] ++ rest from rfl, hmunch]
  simp only [List.isEmpty_eq_true, List.cons_ne_nil, if_false]
  rfl

theorem parseField_fail_head {c : Char} {cs : List Char} (hw : isWsChar c = false)
    (hf : isFieldChar c = false) : parseField (c :: cs) = none := by
  unfold parseField
  rw [skipWs_cons_neg hw]
  simp [takeWhileCh, hf]

theorem parseField_nil : parseField [] = none := rfl

theorem parseField_ws_append {pad s : List Char} (h : ∀ c ∈ pad, isWsChar c = true) :
    parseField (pad ++ s) = parseField s := by
  unfold parseField
  rw [skipWs_append_ws h]

/-! ## Literal tokens -/

theorem parseLit_cons_self {c : Char} (hw : isWsChar c = false) (r : List Char) :
    parseLit c (c :: r) = some r := by
  unfold parseLit
  rw [skipWs_cons_neg hw]
  simp

theorem parseLit_cons_ne {c d : Char} (hw : isWsChar d = false) (hne : d ≠ c)
    (r : List Char) : parseLit c (d :: r) = none := by
  unfold parseLit
  rw [skipWs_cons_neg hw]
  simp [hne]

theorem parseLit_nil (c : Char) : parseLit c [] = none := rfl

theorem parseLit_ws_append (c : Char) {pad s : List Char}
    (h : ∀ x ∈ pad, isWsChar x = true) : parseLit c (pad ++ s) = parseLit c s := by
  unfold parseLit
  rw [skipWs_append_ws h]

theorem parseListMarker_brk (r : List Char) : parseListMarker ('[' :: ']' :: r) = some r := by
  unfold parseListMarker
  rw [skipWs_cons_neg (by decide)]
  simp

theorem parseListMarker_fail {c : Char} {cs : List Char} (hw : isWsChar c = false)
    (hne : c ≠ '[') : parseListMarker (c :: cs) = none := by
  unfold parseListMarker
  rw [skipWs_cons_neg hw]
  simp [hne]

theorem parseListMarker_nil : parseListMarker [] = none := rfl

theorem parseListMarker_ws_append {pad s : List Char}
    (h : ∀ x ∈ pad, isWsChar x = true) : parseListMarker (pad ++ s) = parseListMarker s := by
  unfold parseListMarker
  rw [skipWs_append_ws h]

/-! ## Boundary predicates -/

/-- The head of the remaining input differs from `d` (or the input ends). -/
def headNot (d : Char) : List Char → Prop
  | [] => True
  | c :: _ => c ≠ d

/-- What follows a rendered scalar: end of input, a list comma, or the
newline ending the member's line. -/
def scBoundary : List Char → Prop
  | [] => True
  | c :: _ => c = ',' ∨ c = '\n'

/-- Characters that stop the number regexes (and the date/time regexes)
from extending past a digit run. -/
def numBoundary : List Char → Prop
  | [] => True
  | c :: _ =>
    c.isDigit = false ∧ c ≠ '.' ∧ c ≠ 'e' ∧ c ≠ 'E' ∧ c ≠ '-' ∧ c ≠ ':'

theorem numBoundary_of_sc {rest : List Char} (h : scBoundary rest) : numBoundary rest := by
  cases rest with
  | nil => trivial
  | cons c t =>
    rcases h with h | h <;> subst h <;>
      exact ⟨by decide, by decide, by decide, by decide, by decide, by decide⟩

theorem headNot_of_sc {rest : List Char} (h : scBoundary rest) : headNot '"' rest := by
  cases rest with
  | nil => trivial
  | cons c t =>
    rcases h with h | h <;> subst h
    · show (',' : Char) ≠ '"'
      decide
    · show ('\n' : Char) ≠ '"'
      decide

theorem headFails_digit_of_num {rest : List Char} (h : numBoundary rest) :
    headFails Char.isDigit rest := by
  cases rest with
  | nil => trivial
  | cons c t => exact h.1

/-! ## Quoted strings -/

theorem okStrChar_ne {c d : Char} (h : okStrChar c = true) (hd : okStrChar d = false) :
    c ≠ d := by
  rintro rfl; rw [h] at hd; simp at hd

theorem dqBody_quote_nil : dqBody ['"'] = some ([], []) := rfl

theorem dqBody_quote_cons {c : Char} (t : List Char) (hc : ¬(c = '"')) :
    dqBody ('"' :: c :: t) = some ([], c :: t) := by
  rw [dqBody.eq_def]
  simp [hc]

theorem dqBody_plain {c : Char} (h1 : ¬(c = '"')) (h2 : ¬(c = '\\')) (h3 : ¬(c = '\n'))
    (h4 : ¬(c = '\r')) (cs : List Char) :
    dqBody (c :: cs) = dqCons c (dqBody cs) := by
  rw [dqBody.eq_def]
  simp [h1, h2, h3, h4]

theorem dqBody_render {s : List Char} (h : ∀ c ∈ s, okStrChar c = true)
    {rest : List Char} (hr : headNot '"' rest) :
    dqBody (s ++ '"' :: rest) = some (s, rest) := by
  induction s with
  | nil =>
    cases rest with
    | nil => exact dqBody_quote_nil
    | cons c t => exact dqBody_quote_cons t hr
  | cons c t ih =>
    have hc := h c (by simp)
    have h1 : c ≠ '"' := okStrChar_ne hc (by decide)
    have h2 : c ≠ '\\' := okStrChar_ne hc (by decide)
    have h3 : c ≠ '\n' := okStrChar_ne hc (by decide)
    have h4 : c ≠ '\r' := okStrChar_ne hc (by decide)
    rw [List.cons_append, dqBody_plain h1 h2 h3 h4,
      ih (fun d hd => h d (by simp [hd]))]
    rfl

theorem parseDblQuoted_render {s : String} (h : ∀ c ∈ s.data, okStrChar c = true)
    {rest : List Char} (hr : headNot '"' rest) :
    parseDblQuoted ('"' :: s.data ++ '"' :: rest) = some (s, rest) := by
  unfold parseDblQuoted
  rw [show ('"' :: s.data ++ '"' :: rest) = '"' :: (s.data ++ '"' :: rest) from rfl,
    skipWs_cons_neg (by decide)]
  show (if '"' = '"' then
      (match dqBody (s.data ++ '"' :: rest) with
       | some (b, r) => some (String.mk b, r)
       | none => none)
    else none) = some (s, rest)
  rw [if_pos rfl, dqBody_render h hr]

theorem parseDblQuoted_fail {c : Char} {cs : List Char} (hw : isWsChar c = false)
    (h : c ≠ '"') : parseDblQuoted (c :: cs) = none := by
  unfold parseDblQuoted
  rw [skipWs_cons_neg hw]
  simp [h]

theorem parseDblQuoted_nil : parseDblQuoted [] = none := rfl

/-! ## Date and time regexes -/

theorem matchPat_nil (s : List Char) : matchPat [] s = some ([], s) := rfl

theorem matchPat_digit_cons {ps : List (Option Char)} {c : Char} (hc : c.isDigit = true)
    (cs : List Char) :
    matchPat ((none : Option Char) :: ps) (c :: cs) = dqCons c (matchPat ps cs) := by
  rw [matchPat.eq_def]
  simp [hc]

theorem matchPat_lit_cons {ps : List (Option Char)} {l : Char} (cs : List Char) :
    matchPat (some l :: ps) (l :: cs) = dqCons l (matchPat ps cs) := by
  rw [matchPat.eq_def]
  simp

theorem matchPat_digit_fail {ps : List (Option Char)} {rest : List Char}
    (hr : ∀ c ∈ rest.head?, c.isDigit = false) :
    matchPat ((none : Option Char) :: ps) rest = none := by
  cases rest with
  | nil => rfl
  | cons c t =>
    rw [matchPat.eq_def]
    simp [hr c rfl]

theorem matchPat_lit_fail {ps : List (Option Char)} {l : Char} {rest : List Char}
    (hr : ∀ c ∈ rest.head?, c ≠ l) :
    matchPat (some l :: ps) rest = none := by
  cases rest with
  | nil => rfl
  | cons c t =>
    rw [matchPat.eq_def]
    simp [hr c rfl]

theorem matchPat_date {a b c d e f g h : Char} (ha : a.isDigit = true)
    (hb : b.isDigit = true) (hc : c.isDigit = true) (hd : d.isDigit = true)
    (he : e.isDigit = true) (hf : f.isDigit = true) (hg : g.isDigit = true)
    (hh : h.isDigit = true) (rest : List Char) :
    matchPat datePat (a :: b :: c :: d :: '-' :: e :: f :: '-' :: g :: h :: rest) =
      some ([a, b, c, d, '-', e, f, '-', g, h], rest) := by
  unfold datePat
  rw [matchPat_digit_cons ha, matchPat_digit_cons hb, matchPat_digit_cons hc,
    matchPat_digit_cons hd, matchPat_lit_cons, matchPat_digit_cons he,
    matchPat_digit_cons hf, matchPat_lit_cons, matchPat_digit_cons hg,
    matchPat_digit_cons hh, matchPat_nil]
  rfl

theorem matchPat_time {a b c d e f g h i : Char} (ha : a.isDigit = true)
    (hb : b.isDigit = true) (hc : c.isDigit = true) (hd : d.isDigit = true)
    (he : e.isDigit = true) (hf : f.isDigit = true) (hg : g.isDigit = true)
    (hh : h.isDigit = true) (hi : i.isDigit = true) (rest : List Char) :
    matchPat timePat (a :: b :: ':' :: c :: d :: ':' :: e :: f :: '.' :: g :: h :: i :: rest) =
      some ([a, b, ':', c, d, ':', e, f, '.', g, h, i], rest) := by
  unfold timePat
  rw [matchPat_digit_cons ha, matchPat_digit_cons hb, matchPat_lit_cons,
    matchPat_digit_cons hc, matchPat_digit_cons hd, matchPat_lit_cons,
    matchPat_digit_cons he, matchPat_digit_cons hf, matchPat_lit_cons,
    matchPat_digit_cons hg, matchPat_digit_cons hh, matchPat_digit_cons hi, matchPat_nil]
  rfl

/-- A digit run followed by a character that can neither continue a digit
slot nor be the `-` of a date cannot match the date regex. -/
theorem matchPat_date_fail_digits {ds rest : List Char}
    (hds : ∀ c ∈ ds, c.isDigit = true)
    (hr : ∀ c ∈ rest.head?, c.isDigit = false ∧ c ≠ '-') :
    matchPat datePat (ds ++ rest) = none := by
  have hrd : ∀ c ∈ rest.head?, c.isDigit = false := fun c hc => (hr c hc).1
  have hrl : ∀ c ∈ rest.head?, c ≠ '-' := fun c hc => (hr c hc).2
  unfold datePat
  match ds with
  | [] => exact matchPat_digit_fail hrd
  | [d1] =>
    rw [List.cons_append, List.nil_append, matchPat_digit_cons (hds d1 (by simp))]
    rw [matchPat_digit_fail hrd]
    rfl
  | [d1, d2] =>
    rw [List.cons_append, List.cons_append, List.nil_append,
      matchPat_digit_cons (hds d1 (by simp)), matchPat_digit_cons (hds d2 (by simp))]
    rw [matchPat_digit_fail hrd]
    rfl
  | [d1, d2, d3] =>
    rw [List.cons_append, List.cons_append, List.cons_append, List.nil_append,
      matchPat_digit_cons (hds d1 (by simp)), matchPat_digit_cons (hds d2 (by simp)),
      matchPat_digit_cons (hds d3 (by simp))]
    rw [matchPat_digit_fail hrd]
    rfl
  | [d1, d2, d3, d4] =>
    rw [List.cons_append, List.cons_append, List.cons_append, List.cons_append,
      List.nil_append,
      matchPat_digit_cons (hds d1 (by simp)), matchPat_digit_cons (hds d2 (by simp)),
      matchPat_digit_cons (hds d3 (by simp)), matchPat_digit_cons (hds d4 (by simp))]
    rw [matchPat_lit_fail hrl]
    rfl
  | d1 :: d2 :: d3 :: d4 :: d5 :: t =>
    rw [List.cons_append, List.cons_append, List.cons_append, List.cons_append,
      List.cons_append,
      matchPat_digit_cons (hds d1 (by simp)), matchPat_digit_cons (hds d2 (by simp)),
      matchPat_digit_cons (hds d3 (by simp)), matchPat_digit_cons (hds d4 (by simp))]
    have hlf : ∀ c ∈ (d5 :: (t ++ rest)).head?, c ≠ '-' := fun x hx => by
      have hxe : d5 = x := by simpa using hx
      subst hxe
      exact digit_ne (hds d5 (by simp)) (by decide)
    rw [matchPat_lit_fail hlf]
    rfl

/-- A digit run followed by a character that can neither continue a digit
slot nor be the `:` of a time cannot match the time regex. -/
theorem matchPat_time_fail_digits {ds rest : List Char}
    (hds : ∀ c ∈ ds, c.isDigit = true)
    (hr : ∀ c ∈ rest.head?, c.isDigit = false ∧ c ≠ ':') :
    matchPat timePat (ds ++ rest) = none := by
  have hrd : ∀ c ∈ rest.head?, c.isDigit = false := fun c hc => (hr c hc).1
  have hrl : ∀ c ∈ rest.head?, c ≠ ':' := fun c hc => (hr c hc).2
  unfold timePat
  match ds with
  | [] => exact matchPat_digit_fail hrd
  | [d1] =>
    rw [List.cons_append, List.nil_append, matchPat_digit_cons (hds d1 (by simp))]
    rw [matchPat_digit_fail hrd]
    rfl
  | [d1, d2] =>
    rw [List.cons_append, List.cons_append, List.nil_append,
      matchPat_digit_cons (hds d1 (by simp)), matchPat_digit_cons (hds d2 (by simp))]
    rw [matchPat_lit_fail hrl]
    rfl
  | d1 :: d2 :: d3 :: t =>
    rw [List.cons_append, List.cons_append, List.cons_append,
      matchPat_digit_cons (hds d1 (by simp)), matchPat_digit_cons (hds d2 (by simp))]
    have hlf : ∀ c ∈ (d3 :: (t ++ rest)).head?, c ≠ ':' := fun x hx => by
      have hxe : d3 = x := by simpa using hx
      subst hxe
      exact digit_ne (hds d3 (by simp)) (by decide)
    rw [matchPat_lit_fail hlf]
    rfl

/-! ## Numbers -/

theorem parseDate_eq_matchPat {c : Char} (cs : List Char) (hw : isWsChar c = false) :
    parseDate (c :: cs) =
      (match matchPat datePat (c :: cs) with
       | some (m, r) => some (String.mk m, r)
       | none => none) := by
  unfold parseDate
  rw [skipWs_cons_neg hw]

theorem parseTime_eq_matchPat {c : Char} (cs : List Char) (hw : isWsChar c = false) :
    parseTime (c :: cs) =
      (match matchPat timePat (c :: cs) with
       | some (m, r) => some (String.mk m, r)
       | none => none) := by
  unfold parseTime
  rw [skipWs_cons_neg hw]

theorem parseExpOpt_none {rest : List Char} (h : numBoundary rest) :
    parseExpOpt rest = none := by
  cases rest with
  | nil => rfl
  | cons c t =>
    obtain ⟨-, -, he, hE, -, -⟩ := h
    unfold parseExpOpt
    simp [he, hE]

theorem parseExpOpt_render {es : Option Bool} {eds rest : List Char} (hne : eds ≠ [])
    (heds : ∀ c ∈ eds, c.isDigit = true) (hr : headFails Char.isDigit rest) :
    parseExpOpt ('e' :: (renderESign es ++ (eds ++ rest))) =
      some (expVal (some (es, eds)), rest) := by
  obtain ⟨e1, et, rfl⟩ := List.exists_cons_of_ne_nil hne
  have he1 : e1.isDigit = true := heds e1 (by simp)
  have hmunch : takeWhileCh Char.isDigit (e1 :: (et ++ rest)) = (e1 :: et, rest) := by
    have : takeWhileCh Char.isDigit ((e1 :: et) ++ rest) = (e1 :: et, rest) :=
      takeWhileCh_append heds hr
    simpa using this
  have hm : e1 ≠ '-' := digit_ne he1 (by decide)
  have hp : e1 ≠ '+' := digit_ne he1 (by decide)
  cases es with
  | none => simp [parseExpOpt, renderESign, hmunch, hm, hp, expVal]
  | some b => cases b <;> simp [parseExpOpt, renderESign, hmunch, expVal]

theorem parseNumber_int {neg : Bool} {ds rest : List Char} (hne : ds ≠ [])
    (hds : ∀ c ∈ ds, c.isDigit = true) (hr : numBoundary rest) :
    parseNumber ((if neg then ['-'] else []) ++ (ds ++ rest)) =
      some (.jint (signedVal neg ds), rest) := by
  obtain ⟨d1, dt, rfl⟩ := List.exists_cons_of_ne_nil hne
  have hd1 : d1.isDigit = true := hds d1 (by simp)
  have hmunch : takeWhileCh Char.isDigit (d1 :: (dt ++ rest)) = (d1 :: dt, rest) := by
    have : takeWhileCh Char.isDigit ((d1 :: dt) ++ rest) = (d1 :: dt, rest) :=
      takeWhileCh_append hds (headFails_digit_of_num hr)
    simpa using this
  have hm : d1 ≠ '-' := digit_ne hd1 (by decide)
  have hp : d1 ≠ '+' := digit_ne hd1 (by decide)
  have hw : isWsChar d1 = false := not_ws_of_digit hd1
  cases neg
  case false =>
    cases rest with
    | nil =>
      simp only [List.append_nil] at hmunch
      simp [parseNumber, skipWs_cons_neg hw, hmunch, hm, hp, signedVal]
    | cons r0 rt =>
      obtain ⟨hrd, hrdot, hre, hrE, -, -⟩ := hr
      simp [parseNumber, skipWs_cons_neg hw, hmunch, hm, hp, hrdot, hre, hrE, signedVal]
  case true =>
    cases rest with
    | nil =>
      simp only [List.append_nil] at hmunch
      simp [parseNumber, skipWs_cons_neg (by decide : isWsChar '-' = false), hmunch,
        signedVal]
    | cons r0 rt =>
      obtain ⟨hrd, hrdot, hre, hrE, -, -⟩ := hr
      simp [parseNumber, skipWs_cons_neg (by decide : isWsChar '-' = false), hmunch,
        hrdot, hre, hrE, signedVal]

theorem parseNumber_float_frac {neg : Bool} {ds f rest : List Char} (hne : ds ≠ [])
    (hds : ∀ c ∈ ds, c.isDigit = true) (hf : ∀ c ∈ f, c.isDigit = true)
    (hr : numBoundary rest) :
    parseNumber ((if neg then ['-'] else []) ++ (ds ++ '.' :: (f ++ rest))) =
      some (.jfloat (signedVal neg (ds ++ f)) (0 - (f.length : Int)), rest) := by
  obtain ⟨d1, dt, rfl⟩ := List.exists_cons_of_ne_nil hne
  have hd1 : d1.isDigit = true := hds d1 (by simp)
  have hmunch : takeWhileCh Char.isDigit (d1 :: (dt ++ '.' :: (f ++ rest))) =
      (d1 :: dt, '.' :: (f ++ rest)) := by
    have : takeWhileCh Char.isDigit ((d1 :: dt) ++ '.' :: (f ++ rest)) =
        (d1 :: dt, '.' :: (f ++ rest)) :=
      takeWhileCh_append hds (show ('.' : Char).isDigit = false by decide)
    simpa using this
  have hfr : takeWhileCh Char.isDigit (f ++ rest) = (f, rest) :=
    takeWhileCh_append hf (headFails_digit_of_num hr)
  have hm : d1 ≠ '-' := digit_ne hd1 (by decide)
  have hp : d1 ≠ '+' := digit_ne hd1 (by decide)
  have hw : isWsChar d1 = false := not_ws_of_digit hd1
  cases neg
  case false =>
    simp [parseNumber, skipWs_cons_neg hw, hmunch, hfr, hm, hp, parseExpOpt_none hr,
      signedVal]
  case true =>
    simp [parseNumber, skipWs_cons_neg (by decide : isWsChar '-' = false), hmunch, hfr,
      parseExpOpt_none hr, signedVal]

theorem parseNumber_float_frac_exp {neg : Bool} {ds f : List Char} {es : Option Bool}
    {eds rest : List Char} (hne : ds ≠ []) (hds : ∀ c ∈ ds, c.isDigit = true)
    (hf : ∀ c ∈ f, c.isDigit = true) (hene : eds ≠ [])
    (heds : ∀ c ∈ eds, c.isDigit = true) (hr : headFails Char.isDigit rest) :
    parseNumber ((if neg then ['-'] else []) ++
        (ds ++ '.' :: (f ++ 'e' :: (renderESign es ++ (eds ++ rest))))) =
      some (.jfloat (signedVal neg (ds ++ f))
        (expVal (some (es, eds)) - (f.length : Int)), rest) := by
  obtain ⟨d1, dt, rfl⟩ := List.exists_cons_of_ne_nil hne
  have hd1 : d1.isDigit = true := hds d1 (by simp)
  have hmunch : takeWhileCh Char.isDigit
      (d1 :: (dt ++ '.' :: (f ++ 'e' :: (renderESign es ++ (eds ++ rest))))) =
      (d1 :: dt, '.' :: (f ++ 'e' :: (renderESign es ++ (eds ++ rest)))) := by
    have : takeWhileCh Char.isDigit
        ((d1 :: dt) ++ '.' :: (f ++ 'e' :: (renderESign es ++ (eds ++ rest)))) =
        (d1 :: dt, '.' :: (f ++ 'e' :: (renderESign es ++ (eds ++ rest)))) :=
      takeWhileCh_append hds (show ('.' : Char).isDigit = false by decide)
    simpa using this
  have hfr : takeWhileCh Char.isDigit (f ++ 'e' :: (renderESign es ++ (eds ++ rest))) =
      (f, 'e' :: (renderESign es ++ (eds ++ rest))) :=
    takeWhileCh_append hf (show ('e' : Char).isDigit = false by decide)
  have hexp : parseExpOpt ('e' :: (renderESign es ++ (eds ++ rest))) =
      some (expVal (some (es, eds)), rest) := parseExpOpt_render hene heds hr
  have hm : d1 ≠ '-' := digit_ne hd1 (by decide)
  have hp : d1 ≠ '+' := digit_ne hd1 (by decide)
  have hw : isWsChar d1 = false := not_ws_of_digit hd1
  cases neg
  case false =>
    simp [parseNumber, skipWs_cons_neg hw, hmunch, hfr, hm, hp, hexp, signedVal]
  case true =>
    simp [parseNumber, skipWs_cons_neg (by decide : isWsChar '-' = false), hmunch, hfr,
      hexp, signedVal]

theorem parseNumber_exp_only {neg : Bool} {ds : List Char} {es : Option Bool}
    {eds rest : List Char} (hne : ds ≠ []) (hds : ∀ c ∈ ds, c.isDigit = true)
    (hene : eds ≠ []) (heds : ∀ c ∈ eds, c.isDigit = true)
    (hr : headFails Char.isDigit rest) :
    parseNumber ((if neg then ['-'] else []) ++
        (ds ++ 'e' :: (renderESign es ++ (eds ++ rest)))) =
      some (.jfloat (signedVal neg ds) (expVal (some (es, eds))), rest) := by
  obtain ⟨d1, dt, rfl⟩ := List.exists_cons_of_ne_nil hne
  have hd1 : d1.isDigit = true := hds d1 (by simp)
  have hmunch : takeWhileCh Char.isDigit
      (d1 :: (dt ++ 'e' :: (renderESign es ++ (eds ++ rest)))) =
      (d1 :: dt, 'e' :: (renderESign es ++ (eds ++ rest))) := by
    have : takeWhileCh Char.isDigit
        ((d1 :: dt) ++ 'e' :: (renderESign es ++ (eds ++ rest))) =
        (d1 :: dt, 'e' :: (renderESign es ++ (eds ++ rest))) :=
      takeWhileCh_append hds (show ('e' : Char).isDigit = false by decide)
    simpa using this
  have hexp : parseExpOpt ('e' :: (renderESign es ++ (eds ++ rest))) =
      some (expVal (some (es, eds)), rest) := parseExpOpt_render hene heds hr
  have hm : d1 ≠ '-' := digit_ne hd1 (by decide)
  have hp : d1 ≠ '+' := digit_ne hd1 (by decide)
  have hw : isWsChar d1 = false := not_ws_of_digit hd1
  cases neg
  case false =>
    simp [parseNumber, skipWs_cons_neg hw, hmunch, hexp, hm, hp, signedVal]
  case true =>
    simp [parseNumber, skipWs_cons_neg (by decide : isWsChar '-' = false), hmunch,
      hexp, signedVal]

theorem parseNumber_fail {c : Char} {cs : List Char} (hw : isWsChar c = false)
    (h2 : c.isDigit = false) (h3 : c ≠ '-') (h4 : c ≠ '+') :
    parseNumber (c :: cs) = none := by
  simp [parseNumber, skipWs_cons_neg hw, h3, h4, takeWhileCh, h2]

theorem parseNumber_nil : parseNumber [] = none := rfl

/-! ## Scalar values -/

theorem parseDblQuoted_ws_append {pad s : List Char} (h : ∀ c ∈ pad, isWsChar c = true) :
    parseDblQuoted (pad ++ s) = parseDblQuoted s := by
  unfold parseDblQuoted
  rw [skipWs_append_ws h]

theorem parseDate_ws_append {pad s : List Char} (h : ∀ c ∈ pad, isWsChar c = true) :
    parseDate (pad ++ s) = parseDate s := by
  unfold parseDate
  rw [skipWs_append_ws h]

theorem parseTime_ws_append {pad s : List Char} (h : ∀ c ∈ pad, isWsChar c = true) :
    parseTime (pad ++ s) = parseTime s := by
  unfold parseTime
  rw [skipWs_append_ws h]

theorem parseNumber_ws_append {pad s : List Char} (h : ∀ c ∈ pad, isWsChar c = true) :
    parseNumber (pad ++ s) = parseNumber s := by
  unfold parseNumber
  rw [skipWs_append_ws h]

theorem parseScalar_ws_append {pad s : List Char} (h : ∀ c ∈ pad, isWsChar c = true) :
    parseScalar (pad ++ s) = parseScalar s := by
  unfold parseScalar
  rw [parseDblQuoted_ws_append h, parseDate_ws_append h, parseTime_ws_append h,
    parseNumber_ws_append h]

theorem scDateGuard {rest : List Char} (hb : scBoundary rest) :
    ∀ c ∈ rest.head?, c.isDigit = false ∧ c ≠ '-' := by
  cases rest with
  | nil => intro c hc; simp at hc
  | cons r0 rt =>
    intro c hc
    have : r0 = c := by simpa using hc
    subst this
    rcases hb with h | h <;> subst h <;> exact ⟨by decide, by decide⟩

theorem scTimeGuard {rest : List Char} (hb : scBoundary rest) :
    ∀ c ∈ rest.head?, c.isDigit = false ∧ c ≠ ':' := by
  cases rest with
  | nil => intro c hc; simp at hc
  | cons r0 rt =>
    intro c hc
    have : r0 = c := by simpa using hc
    subst this
    rcases hb with h | h <;> subst h <;> exact ⟨by decide, by decide⟩

theorem headGuard_cons {c0 : Char} (h1 : c0.isDigit = false) {l : Char} (h2 : c0 ≠ l)
    (X : List Char) : ∀ c ∈ (c0 :: X).head?, c.isDigit = false ∧ c ≠ l := by
  intro c hc
  have : c0 = c := by simpa using hc
  subst this
  exact ⟨h1, h2⟩

theorem parseDate_render {a b c d e f g h : Char} (ha : a.isDigit = true)
    (hb : b.isDigit = true) (hc : c.isDigit = true) (hd : d.isDigit = true)
    (he : e.isDigit = true) (hf : f.isDigit = true) (hg : g.isDigit = true)
    (hh : h.isDigit = true) (rest : List Char) :
    parseDate (a :: b :: c :: d :: '-' :: e :: f :: '-' :: g :: h :: rest) =
      some (String.mk [a, b, c, d, '-', e, f, '-', g, h], rest) := by
  rw [parseDate_eq_matchPat _ (not_ws_of_digit ha),
    matchPat_date ha hb hc hd he hf hg hh]

theorem parseTime_render {a b c d e f g h i : Char} (ha : a.isDigit = true)
    (hb : b.isDigit = true) (hc : c.isDigit = true) (hd : d.isDigit = true)
    (he : e.isDigit = true) (hf : f.isDigit = true) (hg : g.isDigit = true)
    (hh : h.isDigit = true) (hi : i.isDigit = true) (rest : List Char) :
    parseTime (a :: b :: ':' :: c :: d :: ':' :: e :: f :: '.' :: g :: h :: i :: rest) =
      some (String.mk [a, b, ':', c, d, ':', e, f, '.', g, h, i], rest) := by
  rw [parseTime_eq_matchPat _ (not_ws_of_digit ha),
    matchPat_time ha hb hc hd he hf hg hh hi]

theorem parseDate_fail_digits {d1 : Char} {dt rest2 : List Char}
    (hds : ∀ c ∈ d1 :: dt, c.isDigit = true)
    (hr : ∀ c ∈ rest2.head?, c.isDigit = false ∧ c ≠ '-') :
    parseDate (d1 :: (dt ++ rest2)) = none := by
  rw [parseDate_eq_matchPat _ (not_ws_of_digit (hds d1 (by simp)))]
  have hnone : matchPat datePat (d1 :: (dt ++ rest2)) = none := by
    have : matchPat datePat ((d1 :: dt) ++ rest2) = none :=
      matchPat_date_fail_digits hds hr
    simpa using this
  rw [hnone]

theorem parseTime_fail_digits {d1 : Char} {dt rest2 : List Char}
    (hds : ∀ c ∈ d1 :: dt, c.isDigit = true)
    (hr : ∀ c ∈ rest2.head?, c.isDigit = false ∧ c ≠ ':') :
    parseTime (d1 :: (dt ++ rest2)) = none := by
  rw [parseTime_eq_matchPat _ (not_ws_of_digit (hds d1 (by simp)))]
  have hnone : matchPat timePat (d1 :: (dt ++ rest2)) = none := by
    have : matchPat timePat ((d1 :: dt) ++ rest2) = none :=
      matchPat_time_fail_digits hds hr
    simpa using this
  rw [hnone]

theorem parseDate_fail_head {c : Char} {cs : List Char} (hw : isWsChar c = false)
    (hd : c.isDigit = false) : parseDate (c :: cs) = none := by
  rw [parseDate_eq_matchPat _ hw]
  have hnone : matchPat datePat (c :: cs) = none := by
    unfold datePat
    exact matchPat_digit_fail (fun x hx => by
      have : c = x := by simpa using hx
      subst this
      exact hd)
  rw [hnone]

theorem parseTime_fail_head {c : Char} {cs : List Char} (hw : isWsChar c = false)
    (hd : c.isDigit = false) : parseTime (c :: cs) = none := by
  rw [parseTime_eq_matchPat _ hw]
  have hnone : matchPat timePat (c :: cs) = none := by
    unfold timePat
    exact matchPat_digit_fail (fun x hx => by
      have : c = x := by simpa using hx
      subst this
      exact hd)
  rw [hnone]

theorem parseDate_nil : parseDate [] = none := rfl

theorem parseTime_nil : parseTime [] = none := rfl

theorem parseScalar_fail {c : Char} {cs : List Char} (hw : isWsChar c = false)
    (h1 : c ≠ '"') (h2 : c.isDigit = false) (h3 : c ≠ '-') (h4 : c ≠ '+') :
    parseScalar (c :: cs) = none := by
  unfold parseScalar
  rw [parseDblQuoted_fail hw h1, parseDate_fail_head hw h2, parseTime_fail_head hw h2,
    parseNumber_fail hw h2 h3 h4]

theorem parseScalar_nil : parseScalar [] = none := rfl

theorem parseScalar_int {neg : Bool} {ds rest : List Char} (hne : ds ≠ [])
    (hds : ∀ c ∈ ds, c.isDigit = true) (hb : scBoundary rest) :
    parseScalar ((if neg then ['-'] else []) ++ (ds ++ rest)) =
      some (.jint (signedVal neg ds), rest) := by
  have hnum : parseNumber ((if neg then ['-'] else []) ++ (ds ++ rest)) =
      some (.jint (signedVal neg ds), rest) :=
    parseNumber_int hne hds (numBoundary_of_sc hb)
  obtain ⟨d1, dt, rfl⟩ := List.exists_cons_of_ne_nil hne
  have hd1 : d1.isDigit = true := hds d1 (by simp)
  cases neg
  case false =>
    simp only [Bool.false_eq_true, if_false, List.nil_append, List.cons_append] at hnum ⊢
    unfold parseScalar
    rw [parseDblQuoted_fail (not_ws_of_digit hd1) (digit_ne hd1 (by decide)),
      parseDate_fail_digits hds (scDateGuard hb),
      parseTime_fail_digits hds (scTimeGuard hb), hnum]
  case true =>
    simp only [if_true, List.singleton_append, List.nil_append, List.cons_append] at hnum ⊢
    unfold parseScalar
    rw [parseDblQuoted_fail (by decide) (by decide),
      parseDate_fail_head (by decide) (by decide),
      parseTime_fail_head (by decide) (by decide), hnum]

theorem parseScalar_float_frac {neg : Bool} {ds f rest : List Char} (hne : ds ≠ [])
    (hds : ∀ c ∈ ds, c.isDigit = true) (hf : ∀ c ∈ f, c.isDigit = true)
    (hb : scBoundary rest) :
    parseScalar ((if neg then ['-'] else []) ++ (ds ++ '.' :: (f ++ rest))) =
      some (.jfloat (signedVal neg (ds ++ f)) (0 - (f.length : Int)), rest) := by
  have hnum : parseNumber ((if neg then ['-'] else []) ++ (ds ++ '.' :: (f ++ rest))) =
      some (.jfloat (signedVal neg (ds ++ f)) (0 - (f.length : Int)), rest) :=
    parseNumber_float_frac hne hds hf (numBoundary_of_sc hb)
  obtain ⟨d1, dt, rfl⟩ := List.exists_cons_of_ne_nil hne
  have hd1 : d1.isDigit = true := hds d1 (by simp)
  cases neg
  case false =>
    simp only [Bool.false_eq_true, if_false, List.nil_append, List.cons_append] at hnum ⊢
    unfold parseScalar
    rw [parseDblQuoted_fail (not_ws_of_digit hd1) (digit_ne hd1 (by decide)),
      parseDate_fail_digits hds (headGuard_cons (by decide) (by decide) _),
      parseTime_fail_digits hds (headGuard_cons (by decide) (by decide) _), hnum]
  case true =>
    simp only [if_true, List.singleton_append, List.nil_append, List.cons_append]
      at hnum ⊢
    unfold parseScalar
    rw [parseDblQuoted_fail (by decide) (by decide),
      parseDate_fail_head (by decide) (by decide),
      parseTime_fail_head (by decide) (by decide), hnum]

theorem parseScalar_float_frac_exp {neg : Bool} {ds f : List Char} {es : Option Bool}
    {eds rest : List Char} (hne : ds ≠ []) (hds : ∀ c ∈ ds, c.isDigit = true)
    (hf : ∀ c ∈ f, c.isDigit = true) (hene : eds ≠ [])
    (heds : ∀ c ∈ eds, c.isDigit = true) (hb : scBoundary rest) :
    parseScalar ((if neg then ['-'] else []) ++
        (ds ++ '.' :: (f ++ 'e' :: (renderESign es ++ (eds ++ rest))))) =
      some (.jfloat (signedVal neg (ds ++ f))
        (expVal (some (es, eds)) - (f.length : Int)), rest) := by
  have hnum : parseNumber ((if neg then ['-'] else []) ++
      (ds ++ '.' :: (f ++ 'e' :: (renderESign es ++ (eds ++ rest))))) =
      some (.jfloat (signedVal neg (ds ++ f))
        (expVal (some (es, eds)) - (f.length : Int)), rest) :=
    parseNumber_float_frac_exp hne hds hf hene heds
      (headFails_digit_of_num (numBoundary_of_sc hb))
  obtain ⟨d1, dt, rfl⟩ := List.exists_cons_of_ne_nil hne
  have hd1 : d1.isDigit = true := hds d1 (by simp)
  cases neg
  case false =>
    simp only [Bool.false_eq_true, if_false, List.nil_append, List.cons_append] at hnum ⊢
    unfold parseScalar
    rw [parseDblQuoted_fail (not_ws_of_digit hd1) (digit_ne hd1 (by decide)),
      parseDate_fail_digits hds (headGuard_cons (by decide) (by decide) _),
      parseTime_fail_digits hds (headGuard_cons (by decide) (by decide) _), hnum]
  case true =>
    simp only [if_true, List.singleton_append, List.nil_append, List.cons_append]
      at hnum ⊢
    unfold parseScalar
    rw [parseDblQuoted_fail (by decide) (by decide),
      parseDate_fail_head (by decide) (by decide),
      parseTime_fail_head (by decide) (by decide), hnum]

theorem parseScalar_exp_only {neg : Bool} {ds : List Char} {es : Option Bool}
    {eds rest : List Char} (hne : ds ≠ []) (hds : ∀ c ∈ ds, c.isDigit = true)
    (hene : eds ≠ []) (heds : ∀ c ∈ eds, c.isDigit = true) (hb : scBoundary rest) :
    parseScalar ((if neg then ['-'] else []) ++
        (ds ++ 'e' :: (renderESign es ++ (eds ++ rest)))) =
      some (.jfloat (signedVal neg ds) (expVal (some (es, eds))), rest) := by
  have hnum : parseNumber ((if neg then ['-'] else []) ++
      (ds ++ 'e' :: (renderESign es ++ (eds ++ rest)))) =
      some (.jfloat (signedVal neg ds) (expVal (some (es, eds))), rest) :=
    parseNumber_exp_only hne hds hene heds
      (headFails_digit_of_num (numBoundary_of_sc hb))
  obtain ⟨d1, dt, rfl⟩ := List.exists_cons_of_ne_nil hne
  have hd1 : d1.isDigit = true := hds d1 (by simp)
  cases neg
  case false =>
    simp only [Bool.false_eq_true, if_false, List.nil_append, List.cons_append] at hnum ⊢
    unfold parseScalar
    rw [parseDblQuoted_fail (not_ws_of_digit hd1) (digit_ne hd1 (by decide)),
      parseDate_fail_digits hds (headGuard_cons (by decide) (by decide) _),
      parseTime_fail_digits hds (headGuard_cons (by decide) (by decide) _), hnum]
  case true =>
    simp only [if_true, List.singleton_append, List.nil_append, List.cons_append]
      at hnum ⊢
    unfold parseScalar
    rw [parseDblQuoted_fail (by decide) (by decide),
      parseDate_fail_head (by decide) (by decide),
      parseTime_fail_head (by decide) (by decide), hnum]

theorem parseScalar_render {sc : PScalar} (h : wfScalar sc = true) {rest : List Char}
    (hb : scBoundary rest) :
    parseScalar (renderScalar sc ++ rest) = some (semScalar sc, rest) := by
  cases sc with
  | pstr s =>
    have hok : ∀ c ∈ s.data, okStrChar c = true := by
      simpa [wfScalar, List.all_eq_true] using h
    simp only [renderScalar, semScalar, List.cons_append, List.append_assoc,
      List.singleton_append, List.nil_append]
    unfold parseScalar
    have hq := parseDblQuoted_render hok (headNot_of_sc hb)
    rw [List.cons_append] at hq
    rw [hq]
  | pint neg ds =>
    have hne : ds ≠ [] := by rintro rfl; simp [wfScalar] at h
    have hds : ∀ c ∈ ds, c.isDigit = true := by
      simp only [wfScalar, Bool.and_eq_true, List.all_eq_true] at h
      exact h.2
    simp only [renderScalar, semScalar, List.append_assoc]
    rw [parseScalar_int hne hds hb]
  | pfloat neg ds fp ex =>
    have hne : ds ≠ [] := by rintro rfl; simp [wfScalar] at h
    cases fp with
    | some f =>
      cases ex with
      | none =>
        simp only [wfScalar, Bool.and_eq_true, List.all_eq_true] at h
        obtain ⟨⟨⟨⟨-, hds⟩, hf⟩, -⟩, -⟩ := h
        simp only [renderScalar, semScalar, Option.getD_some, expVal, List.append_assoc,
          List.cons_append, List.nil_append]
        rw [parseScalar_float_frac hne hds hf hb]
      | some p =>
        obtain ⟨es, eds⟩ := p
        simp only [wfScalar, Bool.and_eq_true, List.all_eq_true, Bool.not_eq_true',
          List.isEmpty_eq_true] at h
        obtain ⟨⟨⟨⟨-, hds⟩, hf⟩, hene, heds⟩, -⟩ := h
        have hene2 : eds ≠ [] := by rintro rfl; simp at hene
        simp only [renderScalar, semScalar, Option.getD_some, List.append_assoc,
          List.cons_append, List.nil_append]
        rw [parseScalar_float_frac_exp hne hds hf hene2 heds hb]
    | none =>
      cases ex with
      | none => simp [wfScalar] at h
      | some p =>
        obtain ⟨es, eds⟩ := p
        simp only [wfScalar, Bool.and_eq_true, List.all_eq_true, Bool.not_eq_true',
          List.isEmpty_eq_true] at h
        obtain ⟨⟨⟨⟨-, hds⟩, -⟩, hene, heds⟩, -⟩ := h
        have hene2 : eds ≠ [] := by rintro rfl; simp at hene
        simp only [renderScalar, semScalar, Option.getD_none, List.append_assoc,
          List.cons_append, List.nil_append, List.append_nil, List.length_nil,
          Nat.cast_zero, sub_zero]
        rw [parseScalar_exp_only hne hds hene2 heds hb]
  | pdate a b c d e f g hh =>
    simp only [wfScalar, Bool.and_eq_true] at h
    obtain ⟨⟨⟨⟨⟨⟨⟨ha, hb2⟩, hc2⟩, hd2⟩, he2⟩, hf2⟩, hg2⟩, hh2⟩ := h
    simp only [renderScalar, semScalar, List.cons_append, List.nil_append]
    unfold parseScalar
    rw [parseDblQuoted_fail (not_ws_of_digit ha) (digit_ne ha (by decide)),
      parseDate_render ha hb2 hc2 hd2 he2 hf2 hg2 hh2]
  | ptime a b c d e f g hh ii =>
    simp only [wfScalar, Bool.and_eq_true] at h
    obtain ⟨⟨⟨⟨⟨⟨⟨⟨ha, hb2⟩, hc2⟩, hd2⟩, he2⟩, hf2⟩, hg2⟩, hh2⟩, hi2⟩ := h
    simp only [renderScalar, semScalar, List.cons_append, List.nil_append]
    unfold parseScalar
    have hdf : parseDate (a :: b :: ':' :: c :: d :: ':' :: e :: f :: '.' ::
        g :: hh :: ii :: rest) = none := by
      have : parseDate (a :: ([b] ++
          (':' :: c :: d :: ':' :: e :: f :: '.' :: g :: hh :: ii :: rest))) = none :=
        parseDate_fail_digits
          (by intro x hx; simp at hx; rcases hx with rfl | rfl
              · exact ha
              · exact hb2)
          (headGuard_cons (by decide) (by decide) _)
      simpa using this
    rw [parseDblQuoted_fail (not_ws_of_digit ha) (digit_ne ha (by decide)), hdf,
      parseTime_render ha hb2 hc2 hd2 he2 hf2 hg2 hh2 hi2]

/-! ## Flat scalar lists (`delimitedList(scalar_value, ",")`) -/

theorem scBoundary_tl (t : List PScalar) (X : List Char) :
    scBoundary (renderScalarsTl t ++ '\n' :: X) := by
  cases t with
  | nil => exact Or.inr rfl
  | cons sc t2 => exact Or.inl rfl

theorem parseScalarTail_render : ∀ (ss : List PScalar) (fuel : Nat) (rest : List Char)
    (acc : List JValue), (∀ sc ∈ ss, wfScalar sc = true) → ss.length + 1 ≤ fuel →
    parseScalarTail fuel (renderScalarsTl ss ++ '\n' :: '}' :: rest) acc =
      some (acc ++ ss.map semScalar, '\n' :: '}' :: rest) := by
  intro ss
  induction ss with
  | nil =>
    intro fuel rest acc _ hfuel
    match fuel, hfuel with
    | fuel + 1, _ =>
      have hlit : parseLit ',' ('\n' :: '}' :: rest) = none := by
        rw [show ('\n' :: '}' :: rest) = ['\n'] ++ ('}' :: rest) from rfl,
          parseLit_ws_append ',' (by decide)]
        exact parseLit_cons_ne (by decide) (by decide) rest
      simp [parseScalarTail, renderScalarsTl, hlit]
  | cons sc t ih =>
    intro fuel rest acc hwf hfuel
    match fuel, hfuel with
    | fuel + 1, hfuel =>
      have hsc := parseScalar_render (hwf sc (by simp))
        (scBoundary_tl t ('\x7d' :: rest))
      have hlit : parseLit ','
          (renderScalarsTl (sc :: t) ++ '\n' :: '}' :: rest) =
          some (' ' :: (renderScalar sc ++ (renderScalarsTl t ++ '\n' :: '}' :: rest))) := by
        simp only [renderScalarsTl, List.cons_append, List.append_assoc]
        exact parseLit_cons_self (by decide) _
      have hsc2 : parseScalar
          (' ' :: (renderScalar sc ++ (renderScalarsTl t ++ '\n' :: '}' :: rest))) =
          some (semScalar sc, renderScalarsTl t ++ '\n' :: '}' :: rest) := by
        rw [show (' ' :: (renderScalar sc ++ (renderScalarsTl t ++ '\n' :: '}' :: rest))) =
          [' '] ++ (renderScalar sc ++ (renderScalarsTl t ++ '\n' :: '}' :: rest)) from rfl,
          parseScalar_ws_append (by decide)]
        simpa using hsc
      rw [parseScalarTail]
      simp only [hlit, hsc2]
      rw [ih fuel rest (acc ++ [semScalar sc]) (fun x hx => hwf x (by simp [hx]))
        (by simpa using Nat.le_of_succ_le_succ hfuel)]
      simp

theorem parseScalarList_render (sc : PScalar) (t : List PScalar) (fuel : Nat)
    (rest : List Char) (hwf : ∀ x ∈ sc :: t, wfScalar x = true)
    (hfuel : t.length + 1 ≤ fuel) :
    parseScalarList fuel (renderScalars (sc :: t) ++ '\n' :: '}' :: rest) =
      some ((sc :: t).map semScalar, '\n' :: '}' :: rest) := by
  have hsc := parseScalar_render (hwf sc (by simp))
    (scBoundary_tl t ('\x7d' :: rest))
  unfold parseScalarList
  rw [show renderScalars (sc :: t) ++ '\n' :: '}' :: rest =
    renderScalar sc ++ (renderScalarsTl t ++ '\n' :: '}' :: rest) by
      simp [renderScalars, List.append_assoc]]
  simp only [hsc]
  rw [parseScalarTail_render t fuel rest [semScalar sc]
    (fun x hx => hwf x (by simp [hx])) hfuel]
  simp

theorem parseScalarList_fail {fuel : Nat} {s : List Char} (h : parseScalar s = none) :
    parseScalarList fuel s = none := by
  unfold parseScalarList
  rw [h]

/-! ## Member-level failure and whitespace lemmas -/

/-- After skipping whitespace, the remaining input does not begin with `=`
or `[`: such a continuation cannot turn a closing `}` (matched as a field
name by the grammar's `field` token) into a member definition. -/
def noEqBrP (rest : List Char) : Prop :=
  match skipWs rest with
  | [] => True
  | c :: _ => c ≠ '=' ∧ c ≠ '['

theorem noEqBrP_cons_ws {c : Char} (hw : isWsChar c = true) {rest : List Char} :
    noEqBrP (c :: rest) ↔ noEqBrP rest := by
  unfold noEqBrP
  rw [skipWs_cons_ws hw]

theorem parseLit_eq_fail {rest : List Char} (h : noEqBrP rest) :
    parseLit '=' rest = none := by
  unfold parseLit
  unfold noEqBrP at h
  cases hsk : skipWs rest with
  | nil => rfl
  | cons c t =>
    rw [hsk] at h
    simp [h.1]

theorem parseListMarker_noBr_fail {rest : List Char} (h : noEqBrP rest) :
    parseListMarker rest = none := by
  unfold parseListMarker
  unfold noEqBrP at h
  cases hsk : skipWs rest with
  | nil => rfl
  | cons c t =>
    rw [hsk] at h
    simp [h.2]

theorem memberDef2With_ws_append (obj : List Char → Option (List (String × JValue) × List Char))
    {pad s : List Char} (h : ∀ c ∈ pad, isWsChar c = true) :
    memberDef2With obj (pad ++ s) = memberDef2With obj s := by
  unfold memberDef2With
  rw [parseField_ws_append h]

theorem member_ws_append (fuel : Nat) {pad s : List Char}
    (h : ∀ c ∈ pad, isWsChar c = true) :
    (mkParsers fuel).member (pad ++ s) = (mkParsers fuel).member s := by
  cases fuel with
  | zero => rfl
  | succ f =>
    rw [member_succ, member_succ, parseField_ws_append h,
      memberDef2With_ws_append _ h]

theorem member_fail_of_noField {fuel : Nat} {s : List Char} (hf : parseField s = none) :
    (mkParsers fuel).member s = none := by
  cases fuel with
  | zero => rfl
  | succ f =>
    rw [member_succ]
    unfold memberDef2With
    rw [hf]
    rfl

theorem member_fail_nil (fuel : Nat) : (mkParsers fuel).member [] = none :=
  member_fail_of_noField parseField_nil

theorem member_fail_brace (fuel : Nat) {rest : List Char} (hnl : nlOrNil rest)
    (hne : noEqBrP rest) : (mkParsers fuel).member ('}' :: rest) = none := by
  cases fuel with
  | zero => rfl
  | succ f =>
    rw [member_succ]
    unfold memberDef2With
    simp only [parseField_brace hnl, parseLit_eq_fail hne, parseListMarker_noBr_fail hne]
    rfl

theorem memberDef2With_fail_brace
    (obj : List Char → Option (List (String × JValue) × List Char))
    {rest : List Char} (hnl : nlOrNil rest) (hne : noEqBrP rest) :
    memberDef2With obj ('}' :: rest) = none := by
  unfold memberDef2With
  simp only [parseField_brace hnl, parseLit_eq_fail hne]

/-! ## Helpers for the round-trip induction -/

theorem fieldChar_not_special {c : Char} (h : isFieldChar c = true) :
    c ≠ '[' ∧ c ≠ ']' ∧ c ≠ '=' := by
  simp only [isFieldChar, Bool.and_eq_true, Bool.not_eq_true', Bool.or_eq_false_iff,
    decide_eq_false_iff_not] at h
  exact ⟨h.2.1.1, h.2.1.2, h.2.2⟩

theorem wfName_head {n : String} (h : wfName n = true) :
    ∃ c t, n.data = c :: t ∧ isFieldChar c = true ∧ c ≠ ' ' := by
  obtain ⟨hne, hall, hhead, -⟩ := wfName_parts h
  cases hd : n.data with
  | nil => exact absurd hd hne
  | cons c t =>
    refine ⟨c, t, rfl, hall c (by rw [hd]; simp), ?_⟩
    have := hhead c
    rw [hd] at this
    exact this (by simp [List.head?])

theorem noScalarStart_parts {n : String} {c : Char} {t : List Char}
    (hd : n.data = c :: t) (h : noScalarStart n = true) :
    c.isDigit = false ∧ c ≠ '-' ∧ c ≠ '+' ∧ c ≠ '"' := by
  unfold noScalarStart at h
  rw [hd] at h
  simp only [Bool.not_eq_true', Bool.or_eq_false_iff, decide_eq_false_iff_not] at h
  exact ⟨h.1.1.1, h.1.1.2, h.1.2, h.2⟩

theorem noEqBrP_brace (rest : List Char) : noEqBrP ('}' :: rest) := by
  unfold noEqBrP
  rw [skipWs_cons_neg (by decide)]
  exact ⟨by decide, by decide⟩

theorem noEqBrP_of_fieldHead {n : String} (hn : wfName n = true) (X : List Char) :
    noEqBrP (n.data ++ X) := by
  obtain ⟨c, t, hd, hcf, hcs⟩ := wfName_head hn
  rw [hd]
  unfold noEqBrP
  rw [List.cons_append, skipWs_cons_neg (not_ws_of_fieldChar hcf hcs)]
  obtain ⟨h1, -, h3⟩ := fieldChar_not_special hcf
  exact ⟨h3, h1⟩

theorem renderMember_shape (n : String) (v : PVal) :
    ∃ t : List Char, renderMember n v = n.data ++ t := by
  cases v with
  | pscalar sc =>
    refine ⟨' ' :: '=' :: ' ' :: (renderScalar sc ++ ['\n']), ?_⟩
    simp [renderMember]
  | pobj ms =>
    refine ⟨' ' :: '=' :: ' ' :: '{' :: '\n' :: (renderMembers ms ++ ['}', '\n']), ?_⟩
    simp [renderMember]
  | plistS ss =>
    refine ⟨'[' :: ']' :: ' ' :: '=' :: ' ' :: '{' :: '\n' ::
      (renderScalars ss ++ ['\n', '}', '\n']), ?_⟩
    simp [renderMember]
  | plistG gs =>
    refine ⟨'[' :: ']' :: ' ' :: '=' :: ' ' :: '{' :: '\n' ::
      (renderGroups gs ++ ['}', '\n']), ?_⟩
    simp [renderMember]

theorem noEqBrP_members (ms : PMembers) (hwf : wfMembers ms = true) {X : List Char}
    (hX : noEqBrP X) : noEqBrP (renderMembers ms ++ X) := by
  cases ms with
  | mnil => simpa [renderMembers] using hX
  | mcons n v t =>
    have hn : wfName n = true := by
      simp only [wfMembers, Bool.and_eq_true] at hwf
      exact hwf.1.1
    obtain ⟨t2, ht2⟩ := renderMember_shape n v
    rw [show renderMembers (PMembers.mcons n v t) = renderMember n v ++ renderMembers t
      from rfl, ht2]
    rw [List.append_assoc, List.append_assoc]
    exact noEqBrP_of_fieldHead hn _

theorem noEqBrP_groups (gs : PGroups) (hwf : wfGroups gs = true) {X : List Char}
    (hX : noEqBrP X) : noEqBrP (renderGroups gs ++ X) := by
  cases gs with
  | gnil => simpa [renderGroups] using hX
  | gcons n body t =>
    have hn : wfName n = true := by
      simp only [wfGroups, Bool.and_eq_true] at hwf
      exact hwf.1.1
    rw [show renderGroups (PGroups.gcons n body t) =
      n.data ++ (' ' :: '=' :: ' ' :: '{' :: '\n' :: (renderMembers body ++
        '}' :: '\n' :: renderGroups t)) from by simp [renderGroups], List.append_assoc]
    exact noEqBrP_of_fieldHead hn _

theorem parseScalarList_ws_append {fuel : Nat} {pad s : List Char}
    (h : ∀ c ∈ pad, isWsChar c = true) :
    parseScalarList fuel (pad ++ s) = parseScalarList fuel s := by
  unfold parseScalarList
  rw [parseScalar_ws_append h]

/-- The flat-scalar alternative of `value_list` fails at the start of a
rendered group sequence (or at the closing brace of an empty body). -/
theorem parseScalar_groups_fail (gs : PGroups) (hwf : wfGroups gs = true)
    (hfirst : match firstGroupName gs with
              | some n => noScalarStart n = true
              | none => True)
    (rest2 : List Char) :
    parseScalar (renderGroups gs ++ '}' :: rest2) = none := by
  cases gs with
  | gnil =>
    exact parseScalar_fail (by decide) (by decide) (by decide) (by decide) (by decide)
  | gcons n body t =>
    have hn : wfName n = true := by
      simp only [wfGroups, Bool.and_eq_true] at hwf
      exact hwf.1.1
    obtain ⟨c, ct, hd, hcf, hcs⟩ := wfName_head hn
    have hns : noScalarStart n = true := hfirst
    obtain ⟨h1, h2, h3, h4⟩ := noScalarStart_parts hd hns
    rw [show renderGroups (PGroups.gcons n body t) =
      n.data ++ (' ' :: '=' :: ' ' :: '{' :: '\n' :: (renderMembers body ++
        '}' :: '\n' :: renderGroups t)) from by simp [renderGroups], hd]
    rw [List.append_assoc, List.cons_append]
    exact parseScalar_fail (not_ws_of_fieldChar hcf hcs) h4 h1 h2 h3

/-! ## Round-trip statements -/

/-- What may follow a member's value on the rest of the input for its
parse not to be disturbed: object and group-list bodies end in a `}` whose
grammar-level re-parse as a field name must not find a `=` or `[]` ahead. -/
def tailOK : PVal → List Char → Prop
  | .pscalar _, _ => True
  | .pobj _, rest => noEqBrP rest
  | .plistS _, _ => True
  | .plistG _, rest => noEqBrP rest

/-- `memberDef` consumes exactly the rendered member (sans its trailing
newline) and produces the member's name and value. -/
def PmemberStmt (v : PVal) : Prop :=
  ∀ (n : String) (rest : List Char) (fuel : Nat), wfName n = true → wfVal v = true →
    tailOK v rest → needVal v + 1 ≤ fuel →
    (mkParsers fuel).member (renderMember n v ++ rest) =
      some ((n, semVal v), '\n' :: rest)

/-- The `ZeroOrMore(memberDef)` loop of `jobject` consumes exactly the
rendered members and stops in front of the closing brace. -/
def PmembersStmt (ms : PMembers) : Prop :=
  ∀ (fuel : Nat) (acc : List (String × JValue)) (pad rest : List Char),
    wfMembers ms = true → needMembers ms ≤ fuel →
    (∀ c ∈ pad, isWsChar c = true) → nlOrNil rest → noEqBrP rest →
    ∃ pad2, (∀ c ∈ pad2, isWsChar c = true) ∧
      (mkParsers fuel).membersAcc (pad ++ (renderMembers ms ++ '}' :: rest)) acc =
        some (acc ++ semPairs ms, pad2 ++ '}' :: rest)

/-- The `ZeroOrMore(Group(Dict(memberDef2)))` loop of `value_list`
consumes exactly the rendered repetitions and stops in front of the
closing brace. -/
def PgroupsStmt (gs : PGroups) : Prop :=
  ∀ (fuel : Nat) (acc : List JValue) (pad rest : List Char),
    wfGroups gs = true → needGroups gs ≤ fuel →
    (∀ c ∈ pad, isWsChar c = true) → nlOrNil rest → noEqBrP rest →
    ∃ pad2, (∀ c ∈ pad2, isWsChar c = true) ∧
      (mkParsers fuel).groupAcc (pad ++ (renderGroups gs ++ '}' :: rest)) acc =
        some (acc ++ semGroups gs, pad2 ++ '}' :: rest)

/-- `jobject` on a rendered body, given the members loop behaves. -/
theorem object_rt_of {ms : PMembers} (hm : PmembersStmt ms) (fuel : Nat)
    (pad rest : List Char) (hwf : wfMembers ms = true)
    (hfuel : needMembers ms + 1 ≤ fuel) (hpad : ∀ c ∈ pad, isWsChar c = true)
    (hnl : nlOrNil rest) (hne : noEqBrP rest) :
    (mkParsers fuel).object (pad ++ ('{' :: '\n' :: (renderMembers ms ++ '}' :: rest))) =
      some (asDictFold (semPairs ms), rest) := by
  match fuel, hfuel with
  | fuel + 1, hfuel =>
    rw [object_succ]
    have hlit : parseLit '{' (pad ++ ('{' :: '\n' :: (renderMembers ms ++ '}' :: rest))) =
        some ('\n' :: (renderMembers ms ++ '}' :: rest)) := by
      rw [parseLit_ws_append _ hpad]
      exact parseLit_cons_self (by decide) _
    obtain ⟨pad2, hpad2, hacc⟩ := hm fuel [] ['\n'] rest hwf
      (Nat.le_of_succ_le_succ hfuel) (by intro c hc; simp at hc; subst hc; rfl) hnl hne
    have hacc2 : (mkParsers fuel).membersAcc ('\n' :: (renderMembers ms ++ '}' :: rest))
        [] = some (semPairs ms, pad2 ++ '}' :: rest) := by
      simpa using hacc
    have hlit2 : parseLit '}' (pad2 ++ '}' :: rest) = some rest := by
      rw [parseLit_ws_append _ hpad2]
      exact parseLit_cons_self (by decide) _
    simp only [hlit, hacc2, hlit2]

theorem PVal_sizeOf_pos (v : PVal) : 1 ≤ sizeOf v := by cases v <;> simp_arith

theorem PMembers_sizeOf_pos (ms : PMembers) : 1 ≤ sizeOf ms := by cases ms <;> simp_arith

theorem PGroups_sizeOf_pos (gs : PGroups) : 1 ≤ sizeOf gs := by cases gs <;> simp_arith

theorem needMembers_pos (ms : PMembers) : 1 ≤ needMembers ms := by
  cases ms with
  | mnil => simp [needMembers]
  | mcons n v t => simp only [needMembers]; omega

theorem needGroups_pos (gs : PGroups) : 1 ≤ needGroups gs := by
  cases gs with
  | gnil => simp [needGroups]
  | gcons n body t => simp only [needGroups]; omega

theorem rt_all : ∀ N : Nat,
    (∀ v : PVal, sizeOf v ≤ N → PmemberStmt v) ∧
    (∀ ms : PMembers, sizeOf ms ≤ N → PmembersStmt ms) ∧
    (∀ gs : PGroups, sizeOf gs ≤ N → PgroupsStmt gs) := by
  intro N
  induction N with
  | zero =>
    refine ⟨fun v hv => absurd hv ?_, fun ms hms => absurd hms ?_,
      fun gs hgs => absurd hgs ?_⟩
    · have := PVal_sizeOf_pos v; omega
    · have := PMembers_sizeOf_pos ms; omega
    · have := PGroups_sizeOf_pos gs; omega
  | succ N ih =>
    obtain ⟨ihV, ihM, ihG⟩ := ih
    refine ⟨?_, ?_, ?_⟩
    -- member statements
    · intro v hv n rest fuel hn hwfv htail hfuel
      cases v with
      | pscalar sc =>
        have hsc : wfScalar sc = true := by simpa [wfVal] using hwfv
        match fuel, hfuel with
        | fuel + 1, _ =>
          rw [member_succ]
          have hshape : renderMember n (.pscalar sc) ++ rest =
              n.data ++ ' ' :: '=' :: (' ' :: (renderScalar sc ++ '\n' :: rest)) := by
            simp [renderMember]
          rw [hshape]
          have h1 := parseField_sp_eq hn (' ' :: (renderScalar sc ++ '\n' :: rest))
          have h2 : parseLit '=' ('=' :: (' ' :: (renderScalar sc ++ '\n' :: rest))) =
              some (' ' :: (renderScalar sc ++ '\n' :: rest)) :=
            parseLit_cons_self (by decide) _
          have h3 : parseScalar (' ' :: (renderScalar sc ++ '\n' :: rest)) =
              some (semScalar sc, '\n' :: rest) := by
            rw [show (' ' :: (renderScalar sc ++ '\n' :: rest)) =
              [' '] ++ (renderScalar sc ++ '\n' :: rest) from rfl,
              parseScalar_ws_append (by decide)]
            exact parseScalar_render hsc (Or.inr rfl)
          simp only [h1, h2, h3]
          rw [show semVal (.pscalar sc) = semScalar sc by simp [semVal]]
          rfl
      | pobj ms =>
        have hms : sizeOf ms ≤ N := by
          have h := hv
          simp only [PVal.pobj.sizeOf_spec] at h
          omega
        have hwfms : wfMembers ms = true := by simpa [wfVal] using hwfv
        have hneq : noEqBrP rest := htail
        match fuel, hfuel with
        | fuel + 1, hfuel =>
          have hfm : needMembers ms + 1 ≤ fuel := by
            simp only [needVal] at hfuel
            omega
          rw [member_succ]
          have hshape : renderMember n (.pobj ms) ++ rest =
              n.data ++ ' ' :: '=' :: (' ' :: ('{' :: '\n' ::
                (renderMembers ms ++ '}' :: ('\n' :: rest)))) := by
            simp [renderMember]
          rw [hshape]
          have h1 := parseField_sp_eq hn (' ' :: ('{' :: '\n' ::
            (renderMembers ms ++ '}' :: ('\n' :: rest))))
          have h2 : parseLit '=' ('=' :: (' ' :: ('{' :: '\n' ::
              (renderMembers ms ++ '}' :: ('\n' :: rest))))) =
              some (' ' :: ('{' :: '\n' :: (renderMembers ms ++ '}' :: ('\n' :: rest)))) :=
            parseLit_cons_self (by decide) _
          have h3 : parseScalar (' ' :: ('{' :: '\n' ::
              (renderMembers ms ++ '}' :: ('\n' :: rest)))) = none := by
            rw [show (' ' :: ('{' :: '\n' :: (renderMembers ms ++ '}' :: ('\n' :: rest)))) =
              [' '] ++ ('{' :: '\n' :: (renderMembers ms ++ '}' :: ('\n' :: rest)))
              from rfl, parseScalar_ws_append (by decide)]
            exact parseScalar_fail (by decide) (by decide) (by decide) (by decide)
              (by decide)
          have h4 : (mkParsers fuel).object (' ' :: ('{' :: '\n' ::
              (renderMembers ms ++ '}' :: ('\n' :: rest)))) =
              some (asDictFold (semPairs ms), '\n' :: rest) := by
            have := object_rt_of (ihM ms hms) fuel [' '] ('\n' :: rest) hwfms hfm
              (by intro c hc; simp at hc; subst hc; rfl) rfl
              ((noEqBrP_cons_ws (show isWsChar '\n' = true from rfl)).mpr hneq)
            simpa using this
          simp only [h1, h2, h3, memberDef2With, h4]
          rw [show semVal (.pobj ms) = JValue.jobj (asDictFold (semPairs ms)) by
            simp [semVal]]
          rfl
      | plistS ss =>
        obtain ⟨sc, t, rfl⟩ : ∃ sc t, ss = sc :: t := by
          cases ss with
          | nil => simp [wfVal] at hwfv
          | cons a b => exact ⟨_, _, rfl⟩
        have hwfss : ∀ x ∈ sc :: t, wfScalar x = true := by
          simp only [wfVal, Bool.and_eq_true, List.all_eq_true] at hwfv
          exact hwfv.2
        match fuel, hfuel with
        | fuel + 1, hfuel =>
          have hf2 : (sc :: t).length + 1 ≤ fuel := by
            simp only [needVal] at hfuel
            omega
          match fuel, hf2 with
          | fuel2 + 1, hf2 =>
            rw [member_succ]
            have hshape : renderMember n (.plistS (sc :: t)) ++ rest =
                n.data ++ '[' :: (']' :: ' ' :: '=' :: (' ' :: ('{' ::
                  ('\n' :: (renderScalars (sc :: t) ++
                    '\n' :: '}' :: ('\n' :: rest)))))) := by
              simp [renderMember]
            rw [hshape]
            have h1 := parseField_brk_eq hn (']' :: ' ' :: '=' :: (' ' :: ('{' ::
              ('\n' :: (renderScalars (sc :: t) ++ '\n' :: '}' :: ('\n' :: rest))))))
            have h2 : parseLit '=' ('[' :: (']' :: ' ' :: '=' :: (' ' :: ('{' ::
                ('\n' :: (renderScalars (sc :: t) ++
                  '\n' :: '}' :: ('\n' :: rest))))))) = none :=
              parseLit_cons_ne (by decide) (by decide) _
            have h3 : parseListMarker ('[' :: (']' :: ' ' :: '=' :: (' ' :: ('{' ::
                ('\n' :: (renderScalars (sc :: t) ++
                  '\n' :: '}' :: ('\n' :: rest))))))) =
                some (' ' :: '=' :: (' ' :: ('{' :: ('\n' :: (renderScalars (sc :: t) ++
                  '\n' :: '}' :: ('\n' :: rest)))))) := by
              exact parseListMarker_brk _
            have h4 : parseLit '=' (' ' :: '=' :: (' ' :: ('{' ::
                ('\n' :: (renderScalars (sc :: t) ++
                  '\n' :: '}' :: ('\n' :: rest)))))) =
                some (' ' :: ('{' :: ('\n' :: (renderScalars (sc :: t) ++
                  '\n' :: '}' :: ('\n' :: rest))))) := by
              rw [show (' ' :: '=' :: (' ' :: ('{' :: ('\n' :: (renderScalars (sc :: t) ++
                '\n' :: '}' :: ('\n' :: rest)))))) =
                [' '] ++ ('=' :: (' ' :: ('{' :: ('\n' :: (renderScalars (sc :: t) ++
                  '\n' :: '}' :: ('\n' :: rest)))))) from rfl,
                parseLit_ws_append _ (by decide)]
              exact parseLit_cons_self (by decide) _
            have h5 : parseLit '{' (' ' :: ('{' :: ('\n' :: (renderScalars (sc :: t) ++
                '\n' :: '}' :: ('\n' :: rest))))) =
                some ('\n' :: (renderScalars (sc :: t) ++
                  '\n' :: '}' :: ('\n' :: rest))) := by
              rw [show (' ' :: ('{' :: ('\n' :: (renderScalars (sc :: t) ++
                '\n' :: '}' :: ('\n' :: rest))))) =
                [' '] ++ ('{' :: ('\n' :: (renderScalars (sc :: t) ++
                  '\n' :: '}' :: ('\n' :: rest)))) from rfl,
                parseLit_ws_append _ (by decide)]
              exact parseLit_cons_self (by decide) _
            have h6 : (mkParsers (fuel2 + 1)).valueList
                ('\n' :: (renderScalars (sc :: t) ++ '\n' :: '}' :: ('\n' :: rest))) =
                some ((sc :: t).map semScalar, '\n' :: '}' :: ('\n' :: rest)) := by
              rw [valueList_succ]
              have hsl : parseScalarList fuel2
                  ('\n' :: (renderScalars (sc :: t) ++ '\n' :: '}' :: ('\n' :: rest))) =
                  some ((sc :: t).map semScalar, '\n' :: '}' :: ('\n' :: rest)) := by
                rw [show ('\n' :: (renderScalars (sc :: t) ++
                  '\n' :: '}' :: ('\n' :: rest))) =
                  ['\n'] ++ (renderScalars (sc :: t) ++ '\n' :: '}' :: ('\n' :: rest))
                  from rfl, parseScalarList_ws_append (by decide)]
                exact parseScalarList_render sc t fuel2 ('\n' :: rest) hwfss
                  (by simpa using Nat.le_of_succ_le_succ hf2)
              simp only [hsl]
            have h7 : parseLit '}' ('\n' :: '}' :: ('\n' :: rest)) =
                some ('\n' :: rest) := by
              rw [show ('\n' :: '}' :: ('\n' :: rest)) =
                ['\n'] ++ ('}' :: ('\n' :: rest)) from rfl,
                parseLit_ws_append _ (by decide)]
              exact parseLit_cons_self (by decide) _
            simp only [h1, h2, h3, h4, h5, h6, h7, memberDef2With]
            rw [show semVal (.plistS (sc :: t)) =
              JValue.jlist ((sc :: t).map semScalar) by simp [semVal]]
            rfl
      | plistG gs =>
        have hgs : sizeOf gs ≤ N := by
          have h := hv
          simp only [PVal.plistG.sizeOf_spec] at h
          omega
        have hneq : noEqBrP rest := htail
        have hwfg : wfGroups gs = true := by
          simp only [wfVal, Bool.and_eq_true] at hwfv
          exact hwfv.1
        have hfirst : match firstGroupName gs with
            | some n2 => noScalarStart n2 = true
            | none => True := by
          simp only [wfVal, Bool.and_eq_true] at hwfv
          have h := hwfv.2
          cases hfg : firstGroupName gs with
          | none => trivial
          | some n2 =>
            rw [hfg] at h
            simpa using h
        match fuel, hfuel with
        | fuel + 1, hfuel =>
          have hf2 : needGroups gs + 1 ≤ fuel := by
            simp only [needVal] at hfuel
            omega
          match fuel, hf2 with
          | fuel2 + 1, hf2 =>
            rw [member_succ]
            have hshape : renderMember n (.plistG gs) ++ rest =
                n.data ++ '[' :: (']' :: ' ' :: '=' :: (' ' :: ('{' ::
                  ('\n' :: (renderGroups gs ++ '}' :: ('\n' :: rest)))))) := by
              simp [renderMember]
            rw [hshape]
            have h1 := parseField_brk_eq hn (']' :: ' ' :: '=' :: (' ' :: ('{' ::
              ('\n' :: (renderGroups gs ++ '}' :: ('\n' :: rest))))))
            have h2 : parseLit '=' ('[' :: (']' :: ' ' :: '=' :: (' ' :: ('{' ::
                ('\n' :: (renderGroups gs ++ '}' :: ('\n' :: rest))))))) = none :=
              parseLit_cons_ne (by decide) (by decide) _
            have h3 : parseListMarker ('[' :: (']' :: ' ' :: '=' :: (' ' :: ('{' ::
                ('\n' :: (renderGroups gs ++ '}' :: ('\n' :: rest))))))) =
                some (' ' :: '=' :: (' ' :: ('{' :: ('\n' :: (renderGroups gs ++
                  '}' :: ('\n' :: rest)))))) :=
              parseListMarker_brk _
            have h4 : parseLit '=' (' ' :: '=' :: (' ' :: ('{' ::
                ('\n' :: (renderGroups gs ++ '}' :: ('\n' :: rest)))))) =
                some (' ' :: ('{' :: ('\n' :: (renderGroups gs ++
                  '}' :: ('\n' :: rest))))) := by
              rw [show (' ' :: '=' :: (' ' :: ('{' :: ('\n' :: (renderGroups gs ++
                '}' :: ('\n' :: rest)))))) =
                [' '] ++ ('=' :: (' ' :: ('{' :: ('\n' :: (renderGroups gs ++
                  '}' :: ('\n' :: rest)))))) from rfl,
                parseLit_ws_append _ (by decide)]
              exact parseLit_cons_self (by decide) _
            have h5 : parseLit '{' (' ' :: ('{' :: ('\n' :: (renderGroups gs ++
                '}' :: ('\n' :: rest))))) =
                some ('\n' :: (renderGroups gs ++ '}' :: ('\n' :: rest))) := by
              rw [show (' ' :: ('{' :: ('\n' :: (renderGroups gs ++
                '}' :: ('\n' :: rest))))) =
                [' '] ++ ('{' :: ('\n' :: (renderGroups gs ++ '}' :: ('\n' :: rest))))
                from rfl, parseLit_ws_append _ (by decide)]
              exact parseLit_cons_self (by decide) _
            obtain ⟨pad2, hpad2, hga⟩ := ihG gs hgs fuel2 [] ['\n'] ('\n' :: rest)
              hwfg (Nat.le_of_succ_le_succ hf2)
              (by intro c hc; simp at hc; subst hc; rfl) rfl
              ((noEqBrP_cons_ws (show isWsChar '\n' = true from rfl)).mpr hneq)
            have h6 : (mkParsers (fuel2 + 1)).valueList
                ('\n' :: (renderGroups gs ++ '}' :: ('\n' :: rest))) =
                some (semGroups gs, pad2 ++ '}' :: ('\n' :: rest)) := by
              rw [valueList_succ]
              have hsl : parseScalarList fuel2
                  ('\n' :: (renderGroups gs ++ '}' :: ('\n' :: rest))) = none := by
                rw [show ('\n' :: (renderGroups gs ++ '}' :: ('\n' :: rest))) =
                  ['\n'] ++ (renderGroups gs ++ '}' :: ('\n' :: rest)) from rfl,
                  parseScalarList_ws_append (by decide)]
                exact parseScalarList_fail
                  (parseScalar_groups_fail gs hwfg hfirst ('\n' :: rest))
              have hga2 : (mkParsers fuel2).groupAcc
                  ('\n' :: (renderGroups gs ++ '}' :: ('\n' :: rest))) [] =
                  some (semGroups gs, pad2 ++ '}' :: ('\n' :: rest)) := by
                simpa using hga
              simp only [hsl, hga2]
            have h7 : parseLit '}' (pad2 ++ '}' :: ('\n' :: rest)) =
                some ('\n' :: rest) := by
              rw [parseLit_ws_append _ hpad2]
              exact parseLit_cons_self (by decide) _
            simp only [h1, h2, h3, h4, h5, h6, h7, memberDef2With]
            rw [show semVal (.plistG gs) = JValue.jlist (semGroups gs) by simp [semVal]]
            rfl
    -- members loop statements
    · intro ms hms fuel acc pad rest hwf hfuel hpad hnl hne
      cases ms with
      | mnil =>
        match fuel, hfuel with
        | fuel + 1, _ =>
          refine ⟨pad, hpad, ?_⟩
          rw [membersAcc_succ]
          have h1 : (mkParsers fuel).member
              (pad ++ (renderMembers PMembers.mnil ++ '}' :: rest)) = none := by
            rw [show renderMembers PMembers.mnil = [] by simp [renderMembers],
              List.nil_append, member_ws_append fuel hpad]
            exact member_fail_brace fuel hnl hne
          simp only [h1]
          simp [semPairs, renderMembers]
      | mcons n v t =>
        have hv2 : sizeOf v ≤ N := by
          have h := hms
          simp only [PMembers.mcons.sizeOf_spec] at h
          omega
        have ht2 : sizeOf t ≤ N := by
          have h := hms
          simp only [PMembers.mcons.sizeOf_spec] at h
          omega
        have hn : wfName n = true := by
          simp only [wfMembers, Bool.and_eq_true] at hwf
          exact hwf.1.1
        have hwv : wfVal v = true := by
          simp only [wfMembers, Bool.and_eq_true] at hwf
          exact hwf.1.2
        have hwt : wfMembers t = true := by
          simp only [wfMembers, Bool.and_eq_true] at hwf
          exact hwf.2
        have hfpos : 1 ≤ fuel := le_trans (needMembers_pos _) hfuel
        cases fuel with
        | zero => omega
        | succ fuel =>
          have hfv : needVal v + 1 ≤ fuel := by
            simp only [needMembers] at hfuel
            omega
          have hft : needMembers t ≤ fuel := by
            simp only [needMembers] at hfuel
            omega
          have htail : tailOK v (renderMembers t ++ '}' :: rest) := by
            cases v with
            | pscalar sc => trivial
            | pobj ms2 => exact noEqBrP_members t hwt (noEqBrP_brace rest)
            | plistS ss => trivial
            | plistG gs => exact noEqBrP_members t hwt (noEqBrP_brace rest)
          have h1 : (mkParsers fuel).member
              (pad ++ (renderMembers (PMembers.mcons n v t) ++ '}' :: rest)) =
              some ((n, semVal v), '\n' :: (renderMembers t ++ '}' :: rest)) := by
            rw [member_ws_append fuel hpad,
              show renderMembers (PMembers.mcons n v t) ++ '}' :: rest =
                renderMember n v ++ (renderMembers t ++ '}' :: rest) by
                  simp [renderMembers]]
            exact ihV v hv2 n (renderMembers t ++ '}' :: rest) fuel hn hwv htail hfv
          obtain ⟨pad2, hpad2, heq⟩ := ihM t ht2 fuel (acc ++ [(n, semVal v)]) ['\n']
            rest hwt hft (by intro c hc; simp at hc; subst hc; rfl) hnl hne
          refine ⟨pad2, hpad2, ?_⟩
          rw [membersAcc_succ]
          simp only [h1]
          have heq2 : (mkParsers fuel).membersAcc
              ('\n' :: (renderMembers t ++ '}' :: rest)) (acc ++ [(n, semVal v)]) =
              some ((acc ++ [(n, semVal v)]) ++ semPairs t, pad2 ++ '}' :: rest) := by
            simpa using heq
          rw [heq2]
          simp [semPairs]
    -- group loop statements
    · intro gs hgs fuel acc pad rest hwf hfuel hpad hnl hne
      cases gs with
      | gnil =>
        match fuel, hfuel with
        | fuel + 1, _ =>
          refine ⟨pad, hpad, ?_⟩
          rw [groupAcc_succ]
          have h1 : memberDef2With (mkParsers fuel).object
              (pad ++ (renderGroups PGroups.gnil ++ '}' :: rest)) = none := by
            rw [show renderGroups PGroups.gnil = [] by simp [renderGroups],
              List.nil_append, memberDef2With_ws_append _ hpad]
            exact memberDef2With_fail_brace _ hnl hne
          simp only [h1]
          simp [semGroups, renderGroups]
      | gcons n body t =>
        have hb2 : sizeOf body ≤ N := by
          have h := hgs
          simp only [PGroups.gcons.sizeOf_spec] at h
          omega
        have ht2 : sizeOf t ≤ N := by
          have h := hgs
          simp only [PGroups.gcons.sizeOf_spec] at h
          omega
        have hn : wfName n = true := by
          simp only [wfGroups, Bool.and_eq_true] at hwf
          exact hwf.1.1
        have hwb : wfMembers body = true := by
          simp only [wfGroups, Bool.and_eq_true] at hwf
          exact hwf.1.2
        have hwt : wfGroups t = true := by
          simp only [wfGroups, Bool.and_eq_true] at hwf
          exact hwf.2
        have hfpos : 1 ≤ fuel := le_trans (needGroups_pos _) hfuel
        cases fuel with
        | zero => omega
        | succ fuel =>
          have hfb : needMembers body + 1 ≤ fuel := by
            simp only [needGroups] at hfuel
            omega
          have hft : needGroups t ≤ fuel := by
            simp only [needGroups] at hfuel
            omega
          have hshape : pad ++ (renderGroups (PGroups.gcons n body t) ++ '}' :: rest) =
              pad ++ (n.data ++ ' ' :: '=' :: (' ' :: ('{' :: '\n' ::
                (renderMembers body ++ '}' ::
                  ('\n' :: (renderGroups t ++ '}' :: rest)))))) := by
            simp [renderGroups]
          have h1 : memberDef2With (mkParsers fuel).object
              (pad ++ (renderGroups (PGroups.gcons n body t) ++ '}' :: rest)) =
              some ((n, asDictFold (semPairs body)),
                '\n' :: (renderGroups t ++ '}' :: rest)) := by
            rw [hshape, memberDef2With_ws_append _ hpad]
            unfold memberDef2With
            rw [parseField_sp_eq hn]
            have hl : parseLit '=' ('=' :: (' ' :: ('{' :: '\n' ::
                (renderMembers body ++ '}' ::
                  ('\n' :: (renderGroups t ++ '}' :: rest)))))) =
                some (' ' :: ('{' :: '\n' :: (renderMembers body ++ '}' ::
                  ('\n' :: (renderGroups t ++ '}' :: rest))))) :=
              parseLit_cons_self (by decide) _
            have hobj : (mkParsers fuel).object (' ' :: ('{' :: '\n' ::
                (renderMembers body ++ '}' ::
                  ('\n' :: (renderGroups t ++ '}' :: rest))))) =
                some (asDictFold (semPairs body),
                  '\n' :: (renderGroups t ++ '}' :: rest)) := by
              have := object_rt_of (ihM body hb2) fuel [' ']
                ('\n' :: (renderGroups t ++ '}' :: rest)) hwb hfb
                (by intro c hc; simp at hc; subst hc; rfl) rfl
                ((noEqBrP_cons_ws (show isWsChar '\n' = true from rfl)).mpr (noEqBrP_groups t hwt (noEqBrP_brace rest)))
              simpa using this
            simp only [hl, hobj]
          obtain ⟨pad2, hpad2, heq⟩ := ihG t ht2 fuel
            (acc ++ [JValue.jobj [(n, JValue.jobj (asDictFold (semPairs body)))]])
            ['\n'] rest hwt hft (by intro c hc; simp at hc; subst hc; rfl) hnl hne
          refine ⟨pad2, hpad2, ?_⟩
          rw [groupAcc_succ]
          simp only [h1]
          have heq2 : (mkParsers fuel).groupAcc
              ('\n' :: (renderGroups t ++ '}' :: rest))
              (acc ++ [JValue.jobj [(n, JValue.jobj (asDictFold (semPairs body)))]]) =
              some ((acc ++ [JValue.jobj [(n, JValue.jobj (asDictFold (semPairs body)))]])
                ++ semGroups t, pad2 ++ '}' :: rest) := by
            simpa using heq
          rw [heq2]
          simp [semGroups]

/-! ## Extraction of the round-trip statements, and fuel bounds -/

theorem memberStmt_all (v : PVal) : PmemberStmt v := (rt_all (sizeOf v)).1 v le_rfl

theorem membersStmt_all (ms : PMembers) : PmembersStmt ms :=
  (rt_all (sizeOf ms)).2.1 ms le_rfl

theorem groupsStmt_all (gs : PGroups) : PgroupsStmt gs :=
  (rt_all (sizeOf gs)).2.2 gs le_rfl

theorem renderScalar_len_pos (sc : PScalar) (h : wfScalar sc = true) :
    1 ≤ (renderScalar sc).length := by
  cases sc with
  | pstr s => simp [renderScalar]
  | pint neg ds =>
    simp only [wfScalar, Bool.and_eq_true] at h
    have hne : ds ≠ [] := by
      intro he
      have h1 := h.1
      rw [he] at h1
      simp at h1
    have : 0 < ds.length := List.length_pos.mpr hne
    cases neg <;> (simp [renderScalar]; try omega)
  | pfloat neg ds fp ex =>
    simp only [wfScalar, Bool.and_eq_true] at h
    have hne : ds ≠ [] := by
      intro he
      have h1 := h.1.1.1.1
      rw [he] at h1
      simp at h1
    have : 0 < ds.length := List.length_pos.mpr hne
    cases neg <;> rcases fp with _ | f <;> rcases ex with _ | ⟨es, eds⟩ <;>
      simp [renderScalar] <;> omega
  | pdate a b c d e f g h => simp [renderScalar]
  | ptime a b c d e f g h i => simp [renderScalar]

theorem renderScalarsTl_len (ss : List PScalar) :
    ss.length ≤ (renderScalarsTl ss).length := by
  induction ss with
  | nil => simp [renderScalarsTl]
  | cons sc t ih =>
    simp only [renderScalarsTl, List.length_cons, List.length_append]
    omega

theorem renderScalars_len (ss : List PScalar) (h : ∀ x ∈ ss, wfScalar x = true) :
    ss.length ≤ (renderScalars ss).length := by
  cases ss with
  | nil => simp [renderScalars]
  | cons sc t =>
    have h1 := renderScalar_len_pos sc (h sc (by simp))
    have h2 := renderScalarsTl_len t
    simp only [renderScalars, List.length_cons, List.length_append]
    omega

theorem need_le_all : ∀ N : Nat,
    (∀ v : PVal, sizeOf v ≤ N → wfVal v = true →
      ∀ n : String, needVal v + 1 ≤ (renderMember n v).length) ∧
    (∀ ms : PMembers, sizeOf ms ≤ N → wfMembers ms = true →
      needMembers ms ≤ (renderMembers ms).length + 1) ∧
    (∀ gs : PGroups, sizeOf gs ≤ N → wfGroups gs = true →
      needGroups gs ≤ (renderGroups gs).length + 1) := by
  intro N
  induction N with
  | zero =>
    refine ⟨fun v hv => absurd hv ?_, fun ms hms => absurd hms ?_,
      fun gs hgs => absurd hgs ?_⟩
    · have := PVal_sizeOf_pos v; omega
    · have := PMembers_sizeOf_pos ms; omega
    · have := PGroups_sizeOf_pos gs; omega
  | succ N ih =>
    obtain ⟨ihV, ihM, ihG⟩ := ih
    refine ⟨?_, ?_, ?_⟩
    · intro v hv hwf n
      cases v with
      | pscalar sc =>
        simp only [needVal, renderMember, List.length_append, List.length_cons]
        omega
      | pobj ms =>
        have hms : sizeOf ms ≤ N := by
          simp only [PVal.pobj.sizeOf_spec] at hv
          omega
        have h1 := ihM ms hms (by simpa [wfVal] using hwf)
        simp only [needVal, renderMember, List.length_append, List.length_cons]
        omega
      | plistS ss =>
        have hall : ∀ x ∈ ss, wfScalar x = true := by
          simp only [wfVal, Bool.and_eq_true, List.all_eq_true] at hwf
          exact hwf.2
        have h1 := renderScalars_len ss hall
        simp only [needVal, renderMember, List.length_append, List.length_cons]
        omega
      | plistG gs =>
        have hgs : sizeOf gs ≤ N := by
          simp only [PVal.plistG.sizeOf_spec] at hv
          omega
        have h1 := ihG gs hgs
          (by simp only [wfVal, Bool.and_eq_true] at hwf; exact hwf.1)
        simp only [needVal, renderMember, List.length_append, List.length_cons]
        omega
    · intro ms hms hwf
      cases ms with
      | mnil => simp [needMembers, renderMembers]
      | mcons n v t =>
        have hv : sizeOf v ≤ N := by
          simp only [PMembers.mcons.sizeOf_spec] at hms
          omega
        have ht : sizeOf t ≤ N := by
          simp only [PMembers.mcons.sizeOf_spec] at hms
          omega
        simp only [wfMembers, Bool.and_eq_true] at hwf
        have h1 := ihV v hv hwf.1.2 n
        have h2 := ihM t ht hwf.2
        simp only [needMembers, renderMembers, List.length_append]
        omega
    · intro gs hgs hwf
      cases gs with
      | gnil => simp [needGroups, renderGroups]
      | gcons n body t =>
        have hb : sizeOf body ≤ N := by
          simp only [PGroups.gcons.sizeOf_spec] at hgs
          omega
        have ht : sizeOf t ≤ N := by
          simp only [PGroups.gcons.sizeOf_spec] at hgs
          omega
        simp only [wfGroups, Bool.and_eq_true] at hwf
        have h1 := ihM body hb hwf.1.2
        have h2 := ihG t ht hwf.2
        simp only [needGroups, renderGroups, List.length_append, List.length_cons]
        omega

theorem noEqBrP_nil : noEqBrP [] := by
  unfold noEqBrP
  exact trivial

/-! ## The top-level `OneOrMore` loop on rendered input -/

theorem top_rt : ∀ (fuel : Nat) (ms : PMembers) (junk : List Char)
    (acc : List (String × JValue)) (pad : List Char),
    noEqBrP junk → (∀ f, (mkParsers f).member junk = none) →
    wfMembers ms = true → needMembers ms ≤ fuel →
    (∀ c ∈ pad, isWsChar c = true) →
    ∃ rest2, parseTopAcc fuel (pad ++ (renderMembers ms ++ junk)) acc =
      some (acc ++ semPairs ms, rest2) := by
  intro fuel
  induction fuel with
  | zero =>
    intro ms junk acc pad hjunk hfail hwf hfuel hpad
    have := needMembers_pos ms
    omega
  | succ f ih =>
    intro ms junk acc pad hjunk hfail hwf hfuel hpad
    cases ms with
    | mnil =>
      refine ⟨pad ++ junk, ?_⟩
      have hm : (mkParsers f).member (pad ++ (renderMembers PMembers.mnil ++ junk)) =
          none := by
        rw [show renderMembers PMembers.mnil = [] from by simp [renderMembers],
          List.nil_append, member_ws_append f hpad]
        exact hfail f
      simp only [parseTopAcc, hm]
      simp [semPairs, renderMembers]
    | mcons n v t =>
      simp only [wfMembers, Bool.and_eq_true] at hwf
      obtain ⟨⟨hn, hv⟩, ht⟩ := hwf
      have hfv : needVal v + 1 ≤ f := by
        simp only [needMembers] at hfuel
        omega
      have hft : needMembers t ≤ f := by
        simp only [needMembers] at hfuel
        omega
      have htail : tailOK v (renderMembers t ++ junk) := by
        cases v with
        | pscalar sc => trivial
        | pobj ms2 => exact noEqBrP_members t ht hjunk
        | plistS ss => trivial
        | plistG gs => exact noEqBrP_members t ht hjunk
      have hm : (mkParsers f).member
          (pad ++ (renderMembers (PMembers.mcons n v t) ++ junk)) =
          some ((n, semVal v), '\n' :: (renderMembers t ++ junk)) := by
        rw [member_ws_append f hpad,
          show renderMembers (PMembers.mcons n v t) ++ junk =
            renderMember n v ++ (renderMembers t ++ junk) from by
              simp [renderMembers]]
        exact memberStmt_all v n (renderMembers t ++ junk) f hn hv htail hfv
      obtain ⟨rest2, h2⟩ := ih t junk (acc ++ [(n, semVal v)]) ['\n'] hjunk hfail ht hft
        (by intro c hc; simp at hc; subst hc; rfl)
      refine ⟨rest2, ?_⟩
      simp only [parseTopAcc, hm]
      have h2b : parseTopAcc f ('\n' :: (renderMembers t ++ junk))
          (acc ++ [(n, semVal v)]) =
          some ((acc ++ [(n, semVal v)]) ++ semPairs t, rest2) := by
        simpa using h2
      rw [h2b]
      simp [semPairs]

/-! ## Tab-freeness: rendered well-formed input is unchanged by `expandtabs` -/

theorem expandTabsAux_no_tab : ∀ (s : List Char), (∀ c ∈ s, c ≠ '\t') →
    ∀ col : Nat, expandTabsAux s col = s := by
  intro s
  induction s with
  | nil => intro _ col; rfl
  | cons c t ih =>
    intro h col
    have hc : ¬(c = '\t') := h c (by simp)
    have ht : ∀ d ∈ t, d ≠ '\t' := fun d hd => h d (by simp [hd])
    simp only [expandTabsAux, if_neg hc]
    by_cases hnl : (c = '\n' || c = '\r') = true
    · rw [if_pos hnl, ih ht 0]
    · rw [if_neg hnl, ih ht (col + 1)]

theorem expandTabs_no_tab (s : List Char) (h : ∀ c ∈ s, c ≠ '\t') :
    expandTabs s = s :=
  expandTabsAux_no_tab s h 0

theorem fieldChar_ne_tab {c : Char} (h : isFieldChar c = true) : c ≠ '\t' := by
  rintro rfl
  exact absurd h (by decide)

theorem wfName_ne_tab {n : String} (hn : wfName n = true) : ∀ c ∈ n.data, c ≠ '\t' :=
  fun c hc => fieldChar_ne_tab ((wfName_parts hn).2.1 c hc)

theorem digits_ne_tab {ds : List Char} (h : ∀ x ∈ ds, x.isDigit = true) :
    ∀ c ∈ ds, c ≠ '\t' :=
  fun c hc => digit_ne (h c hc) (by decide)

theorem renderESign_ne_tab (es : Option Bool) : ∀ c ∈ renderESign es, c ≠ '\t' := by
  rcases es with _ | b
  · intro c hc
    simp [renderESign] at hc
  · cases b with
    | false =>
      intro c hc
      simp [renderESign] at hc
      subst hc
      decide
    | true =>
      intro c hc
      simp [renderESign] at hc
      subst hc
      decide

theorem signPrefix_ne_tab (neg : Bool) :
    ∀ c ∈ (if neg then ['-'] else ([] : List Char)), c ≠ '\t' := by
  cases neg with
  | false =>
    intro c hc
    simp at hc
  | true =>
    intro c hc
    simp at hc
    subst hc
    decide

theorem renderScalar_no_tab {sc : PScalar} (h : wfScalar sc = true) :
    ∀ c ∈ renderScalar sc, c ≠ '\t' := by
  cases sc with
  | pstr s =>
    intro c hc
    simp only [renderScalar, List.cons_append, List.mem_cons, List.mem_append,
      List.not_mem_nil, or_false, or_assoc] at hc
    rcases hc with rfl | hc | rfl
    · decide
    · refine okStrChar_ne ?_ (by decide)
      simp only [wfScalar, List.all_eq_true] at h
      exact h c hc
    · decide
  | pint neg ds =>
    simp only [wfScalar, Bool.and_eq_true, List.all_eq_true] at h
    intro c hc
    simp only [renderScalar, List.mem_append] at hc
    rcases hc with hc | hc
    · exact signPrefix_ne_tab neg c hc
    · exact digits_ne_tab h.2 c hc
  | pfloat neg ds fp ex =>
    have hds : ∀ x ∈ ds, x.isDigit = true := by
      simp only [wfScalar, Bool.and_eq_true, List.all_eq_true] at h
      exact h.1.1.1.2
    rcases fp with _ | f
    · rcases ex with _ | ⟨es, eds⟩
      · simp [wfScalar] at h
      · have hea : ∀ x ∈ eds, x.isDigit = true := by
          simp only [wfScalar, Bool.and_eq_true, List.all_eq_true] at h
          exact h.1.2.2
        intro c hc
        simp only [renderScalar, List.mem_append, List.mem_cons, List.nil_append,
          List.append_nil, List.not_mem_nil, or_false, false_or, or_assoc] at hc
        rcases hc with hc | hc | rfl | hc | hc
        · exact signPrefix_ne_tab neg c hc
        · exact digits_ne_tab hds c hc
        · decide
        · exact renderESign_ne_tab es c hc
        · exact digits_ne_tab hea c hc
    · rcases ex with _ | ⟨es, eds⟩
      · have hfall : ∀ x ∈ f, x.isDigit = true := by
          simp only [wfScalar, Bool.and_eq_true, List.all_eq_true] at h
          exact h.1.1.2
        intro c hc
        simp only [renderScalar, List.mem_append, List.mem_cons, List.nil_append,
          List.append_nil, List.not_mem_nil, or_false, false_or, or_assoc] at hc
        rcases hc with hc | hc | rfl | hc
        · exact signPrefix_ne_tab neg c hc
        · exact digits_ne_tab hds c hc
        · decide
        · exact digits_ne_tab hfall c hc
      · have hfall : ∀ x ∈ f, x.isDigit = true := by
          simp only [wfScalar, Bool.and_eq_true, List.all_eq_true] at h
          exact h.1.1.2
        have hea : ∀ x ∈ eds, x.isDigit = true := by
          simp only [wfScalar, Bool.and_eq_true, List.all_eq_true] at h
          exact h.1.2.2
        intro c hc
        simp only [renderScalar, List.mem_append, List.mem_cons, List.nil_append,
          List.append_nil, List.not_mem_nil, or_false, false_or, or_assoc] at hc
        rcases hc with hc | hc | rfl | hc | rfl | hc | hc
        · exact signPrefix_ne_tab neg c hc
        · exact digits_ne_tab hds c hc
        · decide
        · exact digits_ne_tab hfall c hc
        · decide
        · exact renderESign_ne_tab es c hc
        · exact digits_ne_tab hea c hc
  | pdate x1 x2 x3 x4 x5 x6 x7 x8 =>
    simp only [wfScalar, Bool.and_eq_true] at h
    obtain ⟨⟨⟨⟨⟨⟨⟨h1, h2⟩, h3⟩, h4⟩, h5⟩, h6⟩, h7⟩, h8⟩ := h
    intro c hc
    simp only [renderScalar, List.mem_cons, List.not_mem_nil, or_false] at hc
    rcases hc with rfl | rfl | rfl | rfl | rfl | rfl | rfl | rfl | rfl | rfl
    · exact digit_ne h1 (by decide)
    · exact digit_ne h2 (by decide)
    · exact digit_ne h3 (by decide)
    · exact digit_ne h4 (by decide)
    · decide
    · exact digit_ne h5 (by decide)
    · exact digit_ne h6 (by decide)
    · decide
    · exact digit_ne h7 (by decide)
    · exact digit_ne h8 (by decide)
  | ptime x1 x2 x3 x4 x5 x6 x7 x8 x9 =>
    simp only [wfScalar, Bool.and_eq_true] at h
    obtain ⟨⟨⟨⟨⟨⟨⟨⟨h1, h2⟩, h3⟩, h4⟩, h5⟩, h6⟩, h7⟩, h8⟩, h9⟩ := h
    intro c hc
    simp only [renderScalar, List.mem_cons, List.not_mem_nil, or_false] at hc
    rcases hc with rfl | rfl | rfl | rfl | rfl | rfl | rfl | rfl | rfl | rfl | rfl | rfl
    · exact digit_ne h1 (by decide)
    · exact digit_ne h2 (by decide)
    · decide
    · exact digit_ne h3 (by decide)
    · exact digit_ne h4 (by decide)
    · decide
    · exact digit_ne h5 (by decide)
    · exact digit_ne h6 (by decide)
    · decide
    · exact digit_ne h7 (by decide)
    · exact digit_ne h8 (by decide)
    · exact digit_ne h9 (by decide)

theorem renderScalarsTl_no_tab {ss : List PScalar} (h : ∀ x ∈ ss, wfScalar x = true) :
    ∀ c ∈ renderScalarsTl ss, c ≠ '\t' := by
  induction ss with
  | nil =>
    intro c hc
    simp [renderScalarsTl] at hc
  | cons sc t ih =>
    intro c hc
    simp only [renderScalarsTl, List.mem_cons, List.mem_append, or_assoc] at hc
    rcases hc with rfl | rfl | hc | hc
    · decide
    · decide
    · exact renderScalar_no_tab (h sc (by simp)) c hc
    · exact ih (fun x hx => h x (by simp [hx])) c hc

theorem renderScalars_no_tab {ss : List PScalar} (h : ∀ x ∈ ss, wfScalar x = true) :
    ∀ c ∈ renderScalars ss, c ≠ '\t' := by
  cases ss with
  | nil =>
    intro c hc
    simp [renderScalars] at hc
  | cons sc t =>
    intro c hc
    simp only [renderScalars, List.mem_append, or_assoc] at hc
    rcases hc with hc | hc
    · exact renderScalar_no_tab (h sc (by simp)) c hc
    · exact renderScalarsTl_no_tab (fun x hx => h x (by simp [hx])) c hc

theorem no_tab_all : ∀ N : Nat,
    (∀ v : PVal, sizeOf v ≤ N → wfVal v = true → ∀ n : String, wfName n = true →
      ∀ c ∈ renderMember n v, c ≠ '\t') ∧
    (∀ ms : PMembers, sizeOf ms ≤ N → wfMembers ms = true →
      ∀ c ∈ renderMembers ms, c ≠ '\t') ∧
    (∀ gs : PGroups, sizeOf gs ≤ N → wfGroups gs = true →
      ∀ c ∈ renderGroups gs, c ≠ '\t') := by
  intro N
  induction N with
  | zero =>
    refine ⟨fun v hv => absurd hv ?_, fun ms hms => absurd hms ?_,
      fun gs hgs => absurd hgs ?_⟩
    · have := PVal_sizeOf_pos v; omega
    · have := PMembers_sizeOf_pos ms; omega
    · have := PGroups_sizeOf_pos gs; omega
  | succ N ih =>
    obtain ⟨ihV, ihM, ihG⟩ := ih
    refine ⟨?_, ?_, ?_⟩
    · intro v hv hwf n hn c hc
      cases v with
      | pscalar sc =>
        have hsc : wfScalar sc = true := by simpa [wfVal] using hwf
        simp only [renderMember, List.mem_append, List.mem_cons, List.not_mem_nil,
          or_false, or_assoc] at hc
        rcases hc with hc | rfl | rfl | rfl | hc | rfl
        · exact wfName_ne_tab hn c hc
        · decide
        · decide
        · decide
        · exact renderScalar_no_tab hsc c hc
        · decide
      | pobj ms =>
        have hms : sizeOf ms ≤ N := by
          simp only [PVal.pobj.sizeOf_spec] at hv
          omega
        have hwm : wfMembers ms = true := by simpa [wfVal] using hwf
        simp only [renderMember, List.mem_append, List.mem_cons, List.not_mem_nil,
          or_false, or_assoc] at hc
        rcases hc with hc | rfl | rfl | rfl | rfl | rfl | hc | rfl | rfl
        · exact wfName_ne_tab hn c hc
        · decide
        · decide
        · decide
        · decide
        · decide
        · exact ihM ms hms hwm c hc
        · decide
        · decide
      | plistS ss =>
        have hall : ∀ x ∈ ss, wfScalar x = true := by
          simp only [wfVal, Bool.and_eq_true, List.all_eq_true] at hwf
          exact hwf.2
        simp only [renderMember, List.mem_append, List.mem_cons, List.not_mem_nil,
          or_false, or_assoc] at hc
        rcases hc with hc | rfl | rfl | rfl | rfl | rfl | rfl | rfl | hc | rfl | rfl | rfl
        · exact wfName_ne_tab hn c hc
        · decide
        · decide
        · decide
        · decide
        · decide
        · decide
        · decide
        · exact renderScalars_no_tab hall c hc
        · decide
        · decide
        · decide
      | plistG gs =>
        have hgs : sizeOf gs ≤ N := by
          simp only [PVal.plistG.sizeOf_spec] at hv
          omega
        have hwg : wfGroups gs = true := by
          simp only [wfVal, Bool.and_eq_true] at hwf
          exact hwf.1
        simp only [renderMember, List.mem_append, List.mem_cons, List.not_mem_nil,
          or_false, or_assoc] at hc
        rcases hc with hc | rfl | rfl | rfl | rfl | rfl | rfl | rfl | hc | rfl | rfl
        · exact wfName_ne_tab hn c hc
        · decide
        · decide
        · decide
        · decide
        · decide
        · decide
        · decide
        · exact ihG gs hgs hwg c hc
        · decide
        · decide
    · intro ms hms hwf c hc
      cases ms with
      | mnil => simp [renderMembers] at hc
      | mcons n v t =>
        have hv : sizeOf v ≤ N := by
          simp only [PMembers.mcons.sizeOf_spec] at hms
          omega
        have ht : sizeOf t ≤ N := by
          simp only [PMembers.mcons.sizeOf_spec] at hms
          omega
        simp only [wfMembers, Bool.and_eq_true] at hwf
        simp only [renderMembers, List.mem_append] at hc
        rcases hc with hc | hc
        · exact ihV v hv hwf.1.2 n hwf.1.1 c hc
        · exact ihM t ht hwf.2 c hc
    · intro gs hgs hwf c hc
      cases gs with
      | gnil => simp [renderGroups] at hc
      | gcons n body t =>
        have hb : sizeOf body ≤ N := by
          simp only [PGroups.gcons.sizeOf_spec] at hgs
          omega
        have ht : sizeOf t ≤ N := by
          simp only [PGroups.gcons.sizeOf_spec] at hgs
          omega
        simp only [wfGroups, Bool.and_eq_true] at hwf
        simp only [renderGroups, List.mem_append, List.mem_cons, List.not_mem_nil,
          or_false, or_assoc] at hc
        rcases hc with hc | rfl | rfl | rfl | rfl | rfl | hc | rfl | rfl | hc
        · exact wfName_ne_tab hwf.1.1 c hc
        · decide
        · decide
        · decide
        · decide
        · decide
        · exact ihM body hb hwf.1.2 c hc
        · decide
        · decide
        · exact ihG t ht hwf.2 c hc

/-! ## `to_dict_list` on rendered input -/

theorem to_dict_list_rt (ms : PMembers) (junk : List Char) (hwf : wfMembers ms = true)
    (hjt : ∀ c ∈ junk, c ≠ '\t')
    (hjunk : noEqBrP junk) (hfail : ∀ f, (mkParsers f).member junk = none)
    (hne : ms ≠ PMembers.mnil) :
    to_dict_list (String.mk (renderMembers ms ++ junk)) =
      some ((semPairs ms).map (fun m => [m])) := by
  have hnt : ∀ c ∈ renderMembers ms ++ junk, c ≠ '\t' := by
    intro c hc
    rcases List.mem_append.mp hc with hc | hc
    · exact (no_tab_all (sizeOf ms)).2.1 ms le_rfl hwf c hc
    · exact hjt c hc
  have hexp : expandTabs (String.mk (renderMembers ms ++ junk)).data =
      renderMembers ms ++ junk := by
    rw [show (String.mk (renderMembers ms ++ junk)).data =
      renderMembers ms ++ junk from rfl]
    exact expandTabs_no_tab _ hnt
  have hbound : needMembers ms ≤ (renderMembers ms ++ junk).length + 1 := by
    have h1 := (need_le_all (sizeOf ms)).2.1 ms le_rfl hwf
    rw [List.length_append]
    omega
  obtain ⟨rest2, h⟩ := top_rt ((renderMembers ms ++ junk).length + 1) ms
    junk [] [] hjunk hfail hwf hbound (by intro c hc; simp at hc)
  rw [List.nil_append] at h
  cases ms with
  | mnil => exact absurd rfl hne
  | mcons n v t =>
    rw [show semPairs (PMembers.mcons n v t) = (n, semVal v) :: semPairs t from by
      simp [semPairs], List.nil_append] at h
    unfold to_dict_list _parse
    rw [hexp]
    simp only [h]
    rw [show semPairs (PMembers.mcons n v t) = (n, semVal v) :: semPairs t from by
      simp [semPairs]]

theorem to_dict_list_render (ms : PMembers) (hwf : wfMembers ms = true)
    (hne : ms ≠ PMembers.mnil) :
    to_dict_list (String.mk (renderMembers ms)) =
      some ((semPairs ms).map (fun m => [m])) := by
  have h := to_dict_list_rt ms [] hwf (fun c hc => absurd hc (List.not_mem_nil c))
    noEqBrP_nil (fun f => member_fail_nil f) hne
  simpa using h

theorem to_dict_list_member (n : String) (v : PVal) (hn : wfName n = true)
    (hv : wfVal v = true) :
    to_dict_list (String.mk (renderMember n v)) = some [[(n, semVal v)]] := by
  have h := to_dict_list_render (PMembers.mcons n v PMembers.mnil)
    (by simp [wfMembers, hn, hv]) (by simp)
  simpa [renderMembers, semPairs] using h

/-! ## `asDict` flattening on duplicate-free keys -/

theorem dictInsert_not_mem {acc : List (String × JValue)} {k : String} (v : JValue)
    (h : ∀ p ∈ acc, p.1 ≠ k) : dictInsert acc k v = acc ++ [(k, v)] := by
  have hb : ¬ (acc.any (fun p => p.1 = k) = true) := by
    intro hc
    rw [List.any_eq_true] at hc
    obtain ⟨p, hp, he⟩ := hc
    exact h p hp (by simpa using he)
  unfold dictInsert
  rw [if_neg hb]

theorem asDictFold_aux (ps : List (String × JValue)) :
    ∀ acc : List (String × JValue), ((acc ++ ps).map Prod.fst).Nodup →
    ps.foldl (fun a m => dictInsert a m.1 m.2) acc = acc ++ ps := by
  induction ps with
  | nil => intro acc _; simp
  | cons p t ih =>
    intro acc h
    have h2 : (((acc ++ [p]) ++ t).map Prod.fst).Nodup := by
      rw [show (acc ++ [p]) ++ t = acc ++ p :: t from by simp]
      exact h
    have hins : dictInsert acc p.1 p.2 = acc ++ [p] := by
      apply dictInsert_not_mem
      rw [List.map_append, List.nodup_append] at h
      intro q hq he
      exact h.2.2 (List.mem_map_of_mem Prod.fst hq) (by rw [he]; simp)
    simp only [List.foldl_cons, hins]
    rw [ih (acc ++ [p]) h2]
    simp

theorem asDictFold_nodup (ps : List (String × JValue))
    (h : (ps.map Prod.fst).Nodup) : asDictFold ps = ps := by
  unfold asDictFold
  have := asDictFold_aux ps [] (by simpa using h)
  simpa using this

/-! ## The claims -/

/-- Claim C1: for a `[]`-marked field the result is decided structurally,
subject to the amendment that a grouped body's first repetition name must
not begin with a character that can start a scalar literal (digit, sign or
double quote): a comma-separated scalar body yields the flat list of the
scalars in source order, and a body of `key = { ... }` repetitions yields
the list of one-key mappings in source order. -/
theorem C1_list_structural (n : String) (hn : wfName n = true) :
    (∀ ss : List PScalar, ss ≠ [] → (∀ x ∈ ss, wfScalar x = true) →
      to_dict_list (String.mk (renderMember n (.plistS ss))) =
        some [[(n, JValue.jlist (ss.map semScalar))]]) ∧
    (∀ gs : PGroups, wfGroups gs = true →
      (∀ m, firstGroupName gs = some m → noScalarStart m = true) →
      to_dict_list (String.mk (renderMember n (.plistG gs))) =
        some [[(n, JValue.jlist (semGroups gs))]]) := by
  constructor
  · intro ss hne hss
    have hwv : wfVal (.plistS ss) = true := by
      simp only [wfVal, Bool.and_eq_true]
      refine ⟨?_, ?_⟩
      · cases ss with
        | nil => exact absurd rfl hne
        | cons a b => simp
      · rw [List.all_eq_true]
        intro x hx
        exact hss x hx
    have h := to_dict_list_member n (.plistS ss) hn hwv
    rw [show semVal (.plistS ss) = JValue.jlist (ss.map semScalar) from by
      simp [semVal]] at h
    exact h
  · intro gs hgs hfirst
    have hwv : wfVal (.plistG gs) = true := by
      simp only [wfVal, Bool.and_eq_true]
      refine ⟨hgs, ?_⟩
      cases hfg : firstGroupName gs with
      | none => rfl
      | some m => exact hfirst m hfg
    have h := to_dict_list_member n (.plistG gs) hn hwv
    rw [show semVal (.plistG gs) = JValue.jlist (semGroups gs) from by
      simp [semVal]] at h
    exact h

/-- Counterexample to C1 as stated: the `[]` body `2g = { }` is a single
`key = { ... }` repetition, so the claim promises the value
`[{"2g": {}}]`, but the flat-scalar alternative of `value_list` consumes
the leading digit `2` first and the parse of the whole input fails. -/
theorem C1_counterexample :
    to_dict_list "ovr[] = \x7b\n2g = \x7b \x7d\n\x7d" = none := rfl

/-- Witness for C1: the two examples of the claim, with the grouped body's
repetition name `overrides` (which does not start like a scalar). -/
theorem C1_list_structural_witness :
    to_dict_list (String.mk (renderMember "securities"
        (.plistS [.pstr "A", .pstr "B"]))) =
      some [[("securities", JValue.jlist [JValue.jstr "A", JValue.jstr "B"])]] ∧
    to_dict_list (String.mk (renderMember "overrides"
        (.plistG (PGroups.gcons "overrides" (PMembers.mcons "fieldId"
          (.pscalar (.pstr "X")) (PMembers.mcons "value" (.pscalar (.pstr "Y"))
            PMembers.mnil)) PGroups.gnil)))) =
      some [[("overrides", JValue.jlist [JValue.jobj [("overrides",
        JValue.jobj [("fieldId", JValue.jstr "X"),
          ("value", JValue.jstr "Y")])]])]] := by
  constructor
  · exact (C1_list_structural "securities" (by decide)).1 [.pstr "A", .pstr "B"]
      (by simp) (by decide)
  · have h := (C1_list_structural "overrides" (by decide)).2
      (PGroups.gcons "overrides" (PMembers.mcons "fieldId"
        (.pscalar (.pstr "X")) (PMembers.mcons "value" (.pscalar (.pstr "Y"))
          PMembers.mnil)) PGroups.gnil)
      (by simp only [wfGroups, wfMembers, wfVal]; decide)
      (by
        intro m hm
        rw [show firstGroupName (PGroups.gcons "overrides" (PMembers.mcons "fieldId"
          (.pscalar (.pstr "X")) (PMembers.mcons "value" (.pscalar (.pstr "Y"))
            PMembers.mnil)) PGroups.gnil) = some "overrides" from rfl] at hm
        injection hm with h2
        subst h2
        decide)
    simp only [semGroups, semPairs, semVal] at h
    exact h

/-- Claim C2: scalars are typed by their lexical form through the whole
`to_dict_list` pipeline: a float literal (fractional part and/or exponent)
yields a float with the literal's exact decimal value, a plain integer
literal yields an integer, and a `YYYY-MM-DD` literal yields the literal
ten-character string. -/
theorem C2_scalar_typing (n : String) (hn : wfName n = true) :
    (∀ (neg : Bool) (ds : List Char) (fp : Option (List Char))
        (ex : Option (Option Bool × List Char)),
      wfScalar (.pfloat neg ds fp ex) = true →
      to_dict_list (String.mk (renderMember n (.pscalar (.pfloat neg ds fp ex)))) =
        some [[(n, JValue.jfloat (signedVal neg (ds ++ fp.getD []))
          (expVal ex - ((fp.getD []).length : Int)))]]) ∧
    (∀ (neg : Bool) (ds : List Char), wfScalar (.pint neg ds) = true →
      to_dict_list (String.mk (renderMember n (.pscalar (.pint neg ds)))) =
        some [[(n, JValue.jint (signedVal neg ds))]]) ∧
    (∀ a b c d e f g h : Char, wfScalar (.pdate a b c d e f g h) = true →
      to_dict_list (String.mk (renderMember n (.pscalar (.pdate a b c d e f g h)))) =
        some [[(n, JValue.jstr (String.mk [a, b, c, d, '-', e, f, '-', g, h]))]]) := by
  refine ⟨?_, ?_, ?_⟩
  · intro neg ds fp ex hsc
    have h := to_dict_list_member n (.pscalar (.pfloat neg ds fp ex)) hn
      (by simpa [wfVal] using hsc)
    rw [show semVal (.pscalar (.pfloat neg ds fp ex)) =
      semScalar (.pfloat neg ds fp ex) from by simp [semVal]] at h
    exact h
  · intro neg ds hsc
    have h := to_dict_list_member n (.pscalar (.pint neg ds)) hn
      (by simpa [wfVal] using hsc)
    rw [show semVal (.pscalar (.pint neg ds)) = semScalar (.pint neg ds) from by
      simp [semVal]] at h
    exact h
  · intro a b c d e f g h hsc
    have h2 := to_dict_list_member n (.pscalar (.pdate a b c d e f g h)) hn
      (by simpa [wfVal] using hsc)
    rw [show semVal (.pscalar (.pdate a b c d e f g h)) =
      semScalar (.pdate a b c d e f g h) from by simp [semVal]] at h2
    exact h2

/-- Witness for C2: `PX_LAST = 205.420000` yields the float of exact value
`205.42`, `sequenceNumber = 0` yields the integer `0`, and
`date = 2015-06-29` yields the string `"2015-06-29"`. -/
theorem C2_scalar_typing_witness :
    to_dict_list (String.mk (renderMember "PX_LAST" (.pscalar (.pfloat false
        ['2', '0', '5'] (some ['4', '2', '0', '0', '0', '0']) none)))) =
      some [[("PX_LAST", JValue.jfloat 205420000 (-6))]] ∧
    floatVal 205420000 (-6) = 20542 / 100 ∧
    to_dict_list (String.mk (renderMember "sequenceNumber"
        (.pscalar (.pint false ['0'])))) =
      some [[("sequenceNumber", JValue.jint 0)]] ∧
    to_dict_list (String.mk (renderMember "date"
        (.pscalar (.pdate '2' '0' '1' '5' '0' '6' '2' '9')))) =
      some [[("date", JValue.jstr "2015-06-29")]] := by
  refine ⟨?_, ?_, ?_, ?_⟩
  · exact (C2_scalar_typing "PX_LAST" (by decide)).1 false ['2', '0', '5']
      (some ['4', '2', '0', '0', '0', '0']) none (by decide)
  · simp only [floatVal]
    norm_num
  · exact (C2_scalar_typing "sequenceNumber" (by decide)).2.1 false ['0'] (by decide)
  · exact (C2_scalar_typing "date" (by decide)).2.2 '2' '0' '1' '5' '0' '6' '2' '9'
      (by decide)

/-- Claim C3: an explicit empty body yields an empty container, never a
missing key: `X = { }` yields `[{"X": {}}]`, and a `name[] = { }` field
inside a record yields the empty list under that key. -/
theorem C3_empty_containers (X m : String) (hX : wfName X = true)
    (hm : wfName m = true) :
    to_dict_list (String.mk (renderMember X (.pobj .mnil))) =
      some [[(X, JValue.jobj [])]] ∧
    to_dict_list (String.mk (renderMember X
        (.pobj (.mcons m (.plistG .gnil) .mnil)))) =
      some [[(X, JValue.jobj [(m, JValue.jlist [])])]] := by
  constructor
  · have h := to_dict_list_member X (.pobj .mnil) hX (by simp [wfVal, wfMembers])
    rw [show semVal (.pobj .mnil) = JValue.jobj [] from by
      simp [semVal, semPairs, asDictFold]] at h
    exact h
  · have hwv : wfVal (.pobj (.mcons m (.plistG .gnil) .mnil)) = true := by
      simp [wfVal, wfMembers, wfGroups, firstGroupName, hm]
    have h := to_dict_list_member X (.pobj (.mcons m (.plistG .gnil) .mnil)) hX hwv
    rw [show semVal (.pobj (.mcons m (.plistG .gnil) .mnil)) =
      JValue.jobj [(m, JValue.jlist [])] from by
        simp [semVal, semPairs, semGroups, asDictFold, dictInsert]] at h
    exact h

/-- Witness for C3: the empty record `HistoricalDataRequest = { }` and an
empty `securities[] = { }` field inside it. -/
theorem C3_empty_containers_witness :
    to_dict_list (String.mk (renderMember "HistoricalDataRequest" (.pobj .mnil))) =
      some [[("HistoricalDataRequest", JValue.jobj [])]] ∧
    to_dict_list (String.mk (renderMember "HistoricalDataRequest"
        (.pobj (.mcons "securities" (.plistG .gnil) .mnil)))) =
      some [[("HistoricalDataRequest",
        JValue.jobj [("securities", JValue.jlist [])])]] :=
  C3_empty_containers "HistoricalDataRequest" "securities" (by decide) (by decide)

/-- Claim C4: multiple well-formed top-level records are all returned, one
single-key mapping per record, in source order — amended: the blocks must
be newline-separated (each rendered member ends in a newline); blocks
separated only by spaces, or simply adjacent, make the whole parse fail. -/
theorem C4_records_in_order (ms : PMembers) (hwf : wfMembers ms = true)
    (hne : ms ≠ PMembers.mnil) :
    to_dict_list (String.mk (renderMembers ms)) =
      some ((semPairs ms).map (fun m => [m])) :=
  to_dict_list_render ms hwf hne

/-- Counterexample to C4 as stated: two `HistoricalDataRequest = { }`
blocks that are simply adjacent, or separated by a space, fail to parse
(the greedy field token of the next member swallows the closing brace),
instead of yielding the promised two-element sequence. -/
theorem C4_counterexample :
    to_dict_list
        "HistoricalDataRequest = \x7b \x7dHistoricalDataRequest = \x7b \x7d" =
      none ∧
    to_dict_list
        "HistoricalDataRequest = \x7b \x7d HistoricalDataRequest = \x7b \x7d" =
      none := ⟨rfl, rfl⟩

/-- Witness for C4: two newline-separated `HistoricalDataRequest = { }`
records yield the two-element sequence of the claim. -/
theorem C4_records_in_order_witness :
    to_dict_list (String.mk (renderMembers (PMembers.mcons "HistoricalDataRequest"
        (.pobj .mnil) (PMembers.mcons "HistoricalDataRequest" (.pobj .mnil)
          PMembers.mnil)))) =
      some [[("HistoricalDataRequest", JValue.jobj [])],
        [("HistoricalDataRequest", JValue.jobj [])]] := by
  have h := C4_records_in_order (PMembers.mcons "HistoricalDataRequest"
    (.pobj .mnil) (PMembers.mcons "HistoricalDataRequest" (.pobj .mnil)
      PMembers.mnil))
    (by simp only [wfMembers, wfVal]; decide)
    (by intro h2; exact PMembers.noConfusion h2)
  simpa [semPairs, semVal, asDictFold] using h

/-- Claim C5: for an Object body whose field names are pairwise distinct,
the key order of the resulting mapping is exactly the textual order of the
fields in the source. -/
theorem C5_field_order (X : String) (hX : wfName X = true) (ms : PMembers)
    (hwf : wfMembers ms = true) (hnodup : ((semPairs ms).map Prod.fst).Nodup) :
    to_dict_list (String.mk (renderMember X (.pobj ms))) =
      some [[(X, JValue.jobj (semPairs ms))]] := by
  have h := to_dict_list_member X (.pobj ms) hX (by simpa [wfVal] using hwf)
  rw [show semVal (.pobj ms) = JValue.jobj (asDictFold (semPairs ms)) from by
    simp [semVal], asDictFold_nodup (semPairs ms) hnodup] at h
  exact h

/-- Witness for C5: fields `a, b, c` in that textual order come out in
exactly that key order. -/
theorem C5_field_order_witness :
    to_dict_list (String.mk (renderMember "X" (.pobj (PMembers.mcons "a"
        (.pscalar (.pint false ['1'])) (PMembers.mcons "b"
          (.pscalar (.pint false ['2'])) (PMembers.mcons "c"
            (.pscalar (.pint false ['3'])) PMembers.mnil)))))) =
      some [[("X", JValue.jobj [("a", JValue.jint 1), ("b", JValue.jint 2),
        ("c", JValue.jint 3)])]] := by
  have h := C5_field_order "X" (by decide) (PMembers.mcons "a"
    (.pscalar (.pint false ['1'])) (PMembers.mcons "b"
      (.pscalar (.pint false ['2'])) (PMembers.mcons "c"
        (.pscalar (.pint false ['3'])) PMembers.mnil)))
    (by simp only [wfMembers, wfVal]; decide)
    (by simp only [semPairs, semVal, List.map_cons, List.map_nil]; decide)
  simp only [semPairs, semVal] at h
  exact h

/-- Claim C6 (amended): a parse error is raised exactly when not even one
leading well-formed member can be parsed — a first record with a missing
closing brace, a bare field name with no `=`, or an unterminated quoted
string all yield an error through `to_dict_list` and `to_json`; but a
malformation after one complete member does not (see the counterexample). -/
theorem C6_error_on_empty_prefix :
    to_dict_list "X = \x7b" = none ∧
    to_json "X = \x7b" = none ∧
    to_dict_list "X" = none ∧
    to_dict_list "X = \x22abc" = none := ⟨rfl, rfl, rfl, rfl⟩

/-- Counterexample to C6 as stated: the input `X = 5 Y = {` is malformed
(its brace is never closed), yet `to_dict_list` silently returns the
partial result `[{"X": 5}]` instead of raising. -/
theorem C6_counterexample :
    to_dict_list "X = 5 Y = \x7b" = some [[("X", JValue.jint 5)]] := rfl

/-- Claim C7 (amended): repeated field names at the same nesting level do
not raise, but they are not grouped into a list either: the flattened
dictionary keeps the key at its first position with the value of its last
occurrence. -/
theorem C7_duplicate_fields :
    to_dict_list "X = \x7b\na = 1\nb = 2\na = 3\n\x7d" =
      some [[("X", JValue.jobj [("a", JValue.jint 3), ("b", JValue.jint 2)])]] := rfl

/-- Counterexample to C7 as stated: two occurrences of `a` are claimed to
be grouped as a list of their bodies; instead the result holds the single
scalar value of the last occurrence. -/
theorem C7_counterexample :
    to_dict_list "X = \x7b\na = 1\na = 2\n\x7d" =
      some [[("X", JValue.jobj [("a", JValue.jint 2)])]] := rfl

/-- Claim C8 (code bug): `to_json` computes `json.dumps(...)` but lacks a
`return` statement, so on every input that parses it returns `None`
(modelled as the inner `none`), never the promised JSON string. -/
theorem C8_to_json_missing_return (s : String)
    (ds : List (List (String × JValue))) (h : to_dict_list s = some ds) :
    to_json s = some none := by
  unfold to_json
  rw [h]

/-- Witness for C8: `X = { }` parses, and `to_json` returns `None`. -/
theorem C8_to_json_missing_return_witness :
    to_dict_list "X = \x7b \x7d" = some [[("X", JValue.jobj [])]] ∧
    to_json "X = \x7b \x7d" = some none :=
  ⟨rfl, C8_to_json_missing_return "X = \x7b \x7d" [[("X", JValue.jobj [])]] rfl⟩

/-- Claim C9: the top-level production accepts any member form, not only
`Name = { ... }` records: every well-formed member renders to an input
whose parse yields that member's name and value. -/
theorem C9_top_level_members (n : String) (v : PVal) (hn : wfName n = true)
    (hv : wfVal v = true) :
    to_dict_list (String.mk (renderMember n v)) = some [[(n, semVal v)]] :=
  to_dict_list_member n v hn hv

/-- Witness for C9: the top-level scalar member `X = 5` and the top-level
list member `X[] = { "A" }` of the claim. -/
theorem C9_top_level_members_witness :
    to_dict_list (String.mk (renderMember "X" (.pscalar (.pint false ['5'])))) =
      some [[("X", JValue.jint 5)]] ∧
    to_dict_list (String.mk (renderMember "X" (.plistS [.pstr "A"]))) =
      some [[("X", JValue.jlist [JValue.jstr "A"])]] := by
  constructor
  · have h := C9_top_level_members "X" (.pscalar (.pint false ['5'])) (by decide)
      (by simp only [wfVal]; decide)
    rw [show semVal (.pscalar (.pint false ['5'])) = JValue.jint 5 from by
      simp only [semVal]; rfl] at h
    exact h
  · have h := C9_top_level_members "X" (.plistS [.pstr "A"]) (by decide)
      (by simp only [wfVal]; decide)
    rw [show semVal (.plistS [.pstr "A"]) = JValue.jlist [JValue.jstr "A"] from by
      simp only [semVal]; rfl] at h
    exact h

/-- Claim C10 (amended): parsing does not require the whole input: trailing
text on which `memberDef` fails is silently dropped — provided it also
cannot disturb the last member's parse (after skipping whitespace it must
not present a `=` or `[`, which the greedy field token of a preceding
object or list member would otherwise reach; see the counterexample). -/
theorem C10_trailing_ignored (ms : PMembers) (junk : List Char)
    (hwf : wfMembers ms = true) (hne : ms ≠ PMembers.mnil)
    (hjt : ∀ c ∈ junk, c ≠ '\t') (hjunk : noEqBrP junk)
    (hfail : ∀ f, (mkParsers f).member junk = none) :
    to_dict_list (String.mk (renderMembers ms ++ junk)) =
      some ((semPairs ms).map (fun m => [m])) :=
  to_dict_list_rt ms junk hwf hjt hjunk hfail hne

/-- Counterexample to C10 as stated: after the well-formed record
`X = { }`, the trailing text `= 5` cannot start another member, yet the
parse of the whole input fails instead of returning `[{"X": {}}]`: the
grammar re-enters the object body, the field token swallows the closing
brace and finds the stray `=`. -/
theorem C10_counterexample : to_dict_list "X = \x7b \x7d\n= 5" = none := rfl

/-- Witness for C10: a stray unmatched closing brace after `X = { }` is
silently ignored. -/
theorem C10_trailing_ignored_witness :
    noEqBrP ['\x7d'] ∧
    to_dict_list (String.mk (renderMembers (PMembers.mcons "X" (.pobj .mnil)
        PMembers.mnil) ++ ['\x7d'])) =
      some [[("X", JValue.jobj [])]] := by
  refine ⟨noEqBrP_brace [], ?_⟩
  have h := C10_trailing_ignored (PMembers.mcons "X" (.pobj .mnil) PMembers.mnil)
    ['\x7d'] (by simp only [wfMembers, wfVal]; decide)
    (by intro h2; exact PMembers.noConfusion h2) (by decide) (noEqBrP_brace [])
    (fun f => member_fail_brace f trivial noEqBrP_nil)
  simpa [semPairs, semVal, asDictFold] using h
